import Mathlib

set_option maxRecDepth 100000

/-!
Verification of the Attack Graph and Remediation Engine of the
`cloud_attack_analysis` package (attack_engine.py, fix_engine.py,
models.py).  The Python code is shallowly embedded: heterogeneous Python
values become the inductive `Val`, raising operations return
`Except PyErr`, and the graphs of `networkx` (version 3.2.1, as pinned in
setup.py) become explicit node/edge lists with the library's documented
semantics.
-/

/-- Python-style heterogeneous values: the scalars, lists and dicts stored
in resource attribute bags and policy documents. -/
inductive Val where
  | vStr (s : String)
  | vInt (n : Int)
  | vBool (b : Bool)
  | vList (xs : List Val)
  | vDict (kvs : List (String × Val))
  | vNone

open Val

/-- The Python exceptions the embedded code can raise. -/
inductive PyErr where
  | indexError
  | attributeError
  | typeError
deriving Repr, DecidableEq

/-- Python truthiness (`bool(v)`): empty containers, empty strings, zero,
`False` and `None` are falsy. -/
def pyTruthy : Val → Bool
  | vStr s => !s.data.isEmpty
  | vInt n => !(n == 0)
  | vBool b => b
  | vList xs => !xs.isEmpty
  | vDict kvs => !kvs.isEmpty
  | vNone => false

/-- Python `v == s` for a string literal `s`: only an equal string compares
equal, values of other types compare unequal (no exception). -/
def pyEqStr (v : Val) (s : String) : Bool :=
  match v with
  | vStr t => t == s
  | _ => false

/-- Python `s in xs` for a string `s` and a Python list `xs`. -/
def listContainsStr (xs : List Val) (s : String) : Bool :=
  xs.any (fun v => pyEqStr v s)

/-- Python whitespace as stripped by `str.strip()`. -/
def pyIsSpace (c : Char) : Bool :=
  c = ' ' || c = '\t' || c = '\n' || c = '\r' || c = '\x0b' || c = '\x0c'

/-- Python `str.strip()`. -/
def pyStrip (s : String) : String :=
  String.mk (((s.data.dropWhile pyIsSpace).reverse.dropWhile pyIsSpace).reverse)

/-- Python `s.startswith(p)`. -/
def pyStartswith (s p : String) : Bool :=
  List.isPrefixOf p.data s.data

/-- Python `s.endswith(p)`. -/
def pyEndswith (s p : String) : Bool :=
  List.isSuffixOf p.data s.data

/-- Characters of a list before the first occurrence of the pattern `sep`
(the whole list when `sep` does not occur). -/
def takeUntilSub (sep : List Char) : List Char → List Char
  | [] => []
  | c :: rest =>
    if List.isPrefixOf sep (c :: rest) then []
    else c :: takeUntilSub sep rest

/-- Python `s.split(sep)[0]` for a non-empty separator: the part of `s`
before the first occurrence of `sep`. -/
def pySplitHead (s sep : String) : String :=
  String.mk (takeUntilSub sep.data s.data)

/-- Python `s.replace(old, new)` for a non-empty `old`, on char lists; the
fuel argument (instantiated with the length of the list) keeps the
recursion structural. -/
def replaceSubAux (old new : List Char) : Nat → List Char → List Char
  | _, [] => []
  | 0, cs => cs
  | f + 1, c :: rest =>
    if List.isPrefixOf old (c :: rest) then
      new ++ replaceSubAux old new f ((c :: rest).drop old.length)
    else
      c :: replaceSubAux old new f rest

/-- Python `s.replace(old, new)` for a non-empty `old`. -/
def pyReplace (s old new : String) : String :=
  String.mk (replaceSubAux old.data new.data s.data.length s.data)

/-- Python `s in t` for strings: substring containment. -/
def listContainsSub (sub : List Char) : List Char → Bool
  | [] => sub.isEmpty
  | c :: rest => List.isPrefixOf sub (c :: rest) || listContainsSub sub rest

/-- Python `sub in hay` on strings. -/
def strContainsSub (hay sub : String) : Bool :=
  listContainsSub sub.data hay.data

/-- Python `s.rstrip("*")`: remove all trailing `*` characters. -/
def rstripStars (s : String) : String :=
  String.mk (s.data.reverse.dropWhile (fun c => c = '*')).reverse

/-- Python `s.upper()` (ASCII, as used on service tokens). -/
def pyUpper (s : String) : String :=
  String.mk (s.data.map Char.toUpper)

/-- Python `s.lower()` (ASCII, as used on attribute strings). -/
def pyLower (s : String) : String :=
  String.mk (s.data.map Char.toLower)

/-- `s.split(sep)` for a single-character separator, on char lists. -/
def splitChar (sep : Char) : List Char → List (List Char)
  | [] => [[]]
  | c :: rest =>
    let r := splitChar sep rest
    if c = sep then [] :: r
    else
      match r with
      | h :: t => (c :: h) :: t
      | [] => [[c]]

/-- Python `s.split(sep)` for a single-character separator. -/
def pySplitChar (s : String) (sep : Char) : List String :=
  (splitChar sep s.data).map String.mk

/-- `dict.get(k, d)` over insertion-ordered key/value pairs (Python dicts
have unique keys, so first match suffices). -/
def dictGetD (kvs : List (String × Val)) (k : String) (d : Val) : Val :=
  match kvs with
  | [] => d
  | (k', v) :: rest => if k' = k then v else dictGetD rest k d

/-- `k in d` for a Python dict. -/
def dictHasKey (kvs : List (String × Val)) (k : String) : Bool :=
  kvs.any (fun kv => kv.1 == k)

/-- `.get(k, d)` on an arbitrary value: non-dicts have no `get` attribute
and raise `AttributeError`. -/
def docGetD (doc : Val) (k : String) (d : Val) : Except PyErr Val :=
  match doc with
  | vDict kvs => .ok (dictGetD kvs k d)
  | _ => .error .attributeError

/-- Python iteration `for x in v`: lists yield their elements, strings
their characters, dicts their keys; other values raise `TypeError`. -/
def pyIter : Val → Except PyErr (List Val)
  | vList xs => .ok xs
  | vStr s => .ok (s.data.map (fun c => vStr (String.mk [c])))
  | vDict kvs => .ok (kvs.map (fun kv => vStr kv.1))
  | _ => .error .typeError

/-- Escaping of one character inside a Python `repr` of a string (the
escapes exercised by attribute data; rarer escapes of unprintable
characters are not modelled). -/
def pyEscapeChar (quote : Char) (c : Char) : List Char :=
  if c = '\\' then ['\\', '\\']
  else if c = quote then ['\\', quote]
  else if c = '\n' then ['\\', 'n']
  else if c = '\t' then ['\\', 't']
  else if c = '\r' then ['\\', 'r']
  else [c]

/-- Python `repr` of a string: single quotes by default; double quotes when
the string contains a single quote but no double quote. -/
def pyReprStr (s : String) : String :=
  if s.data.contains '\'' && !(s.data.contains '"') then
    String.mk ('"' :: (s.data.flatMap (pyEscapeChar '"')) ++ ['"'])
  else
    String.mk ('\'' :: (s.data.flatMap (pyEscapeChar '\'')) ++ ['\''])

mutual

/-- Python `repr` of a value (container elements are shown with `repr`). -/
def pyRepr : Val → String
  | vStr s => pyReprStr s
  | vInt n => toString n
  | vBool b => if b then "True" else "False"
  | vNone => "None"
  | vList xs => "[" ++ String.intercalate ", " (pyReprList xs) ++ "]"
  | vDict kvs => String.mk (Char.ofNat 123 :: (String.intercalate ", " (pyReprKVs kvs)).data ++ [Char.ofNat 125])

/-- `repr` of the elements of a list. -/
def pyReprList : List Val → List String
  | [] => []
  | x :: rest => pyRepr x :: pyReprList rest

/-- `repr` of the entries of a dict. -/
def pyReprKVs : List (String × Val) → List String
  | [] => []
  | (k, v) :: rest => (pyReprStr k ++ ": " ++ pyRepr v) :: pyReprKVs rest

end

/-- Python `str` of a value: strings print verbatim, containers as their
`repr`. -/
def pyStr : Val → String
  | vStr s => s
  | v => pyRepr v

/-! ### json.loads -/

/-- JSON whitespace. -/
def jsonWs (cs : List Char) : List Char :=
  cs.dropWhile (fun c => c = ' ' || c = '\t' || c = '\n' || c = '\r')

/-- Body of a JSON string after the opening quote, with the common escapes
(`\uXXXX` escapes are not modelled; no analysed input uses them). -/
def jsonStringBody : List Char → List Char → Option (String × List Char)
  | [], _ => none
  | c :: rest, acc =>
    if c = '"' then some (String.mk acc.reverse, rest)
    else if c = '\\' then
      match rest with
      | [] => none
      | e :: rest2 =>
        let d : Option Char :=
          if e = '"' then some '"'
          else if e = '\\' then some '\\'
          else if e = '/' then some '/'
          else if e = 'n' then some '\n'
          else if e = 't' then some '\t'
          else if e = 'r' then some '\r'
          else if e = 'b' then some (Char.ofNat 8)
          else if e = 'f' then some (Char.ofNat 12)
          else none
        match d with
        | some dc => jsonStringBody rest2 (dc :: acc)
        | none => none
    else jsonStringBody rest (c :: acc)

/-- A JSON number.  Only integer literals are modelled; fractional and
exponent forms make the model parser fail (no analysed policy document
contains them). -/
def jsonNumber (cs : List Char) : Option (Val × List Char) :=
  let p := match cs with
    | '-' :: r => (true, r)
    | _ => (false, cs)
  let ds := p.2.takeWhile (fun c => c.isDigit)
  let rest := p.2.dropWhile (fun c => c.isDigit)
  if ds.isEmpty then none
  else
    match rest with
    | '.' :: _ => none
    | 'e' :: _ => none
    | 'E' :: _ => none
    | _ =>
      let n : Nat := ds.foldl (fun a c => a * 10 + (c.toNat - 48)) 0
      some (vInt (if p.1 then -(n : Int) else (n : Int)), rest)

/-- Parser mode: a top-level value, the items of an array, or the fields
of an object. -/
inductive JMode where
  | top
  | items (acc : List Val)
  | fields (acc : List (String × Val))

/-- Recursive-descent JSON parser for `json.loads`.  Every recursive call
decreases the fuel, keeping the definition structurally recursive and
kernel-reducible. -/
def jsonP : Nat → JMode → List Char → Option (Val × List Char)
  | 0, _, _ => none
  | f + 1, .top, cs =>
    match jsonWs cs with
    | [] => none
    | c :: rest =>
      if c = '"' then
        match jsonStringBody rest [] with
        | some (s, r) => some (vStr s, r)
        | none => none
      else if c = 't' then
        if List.isPrefixOf ['r', 'u', 'e'] rest then some (vBool true, rest.drop 3) else none
      else if c = 'f' then
        if List.isPrefixOf ['a', 'l', 's', 'e'] rest then some (vBool false, rest.drop 4) else none
      else if c = 'n' then
        if List.isPrefixOf ['u', 'l', 'l'] rest then some (vNone, rest.drop 3) else none
      else if c = '[' then
        match jsonWs rest with
        | ']' :: r2 => some (vList [], r2)
        | r2 => jsonP f (.items []) r2
      else if c = Char.ofNat 123 then
        let r2 := jsonWs rest
        if r2.head? = some (Char.ofNat 125) then some (vDict [], r2.tail)
        else jsonP f (.fields []) r2
      else jsonNumber (c :: rest)
  | f + 1, .items acc, cs =>
    match jsonP f .top cs with
    | none => none
    | some (v, rest) =>
      match jsonWs rest with
      | ',' :: r2 => jsonP f (.items (v :: acc)) r2
      | ']' :: r2 => some (vList (v :: acc).reverse, r2)
      | _ => none
  | f + 1, .fields acc, cs =>
    match jsonWs cs with
    | '"' :: rest =>
      match jsonStringBody rest [] with
      | none => none
      | some (k, r1) =>
        match jsonWs r1 with
        | ':' :: r2 =>
          match jsonP f .top r2 with
          | none => none
          | some (v, r3) =>
            match jsonWs r3 with
            | ',' :: r4 => jsonP f (.fields ((k, v) :: acc)) r4
            | r4 =>
              if r4.head? = some (Char.ofNat 125) then some (vDict ((k, v) :: acc).reverse, r4.tail)
              else none
        | _ => none
    | _ => none

/-- `json.loads`: parse a JSON document, requiring the whole input to be
consumed; `none` models `json.JSONDecodeError`. -/
def jsonLoads (s : String) : Option Val :=
  match jsonP (2 * s.data.length + 4) .top s.data with
  | some (v, rest) => if (jsonWs rest).isEmpty then some v else none
  | none => none

/-! ### Data model (models.py) -/

/-- A normalized Terraform resource (models.Resource). -/
structure Resource where
  id : String
  type : String
  name : String
  attributes : List (String × Val)

/-- `Resource.is_ai_service`. -/
def Resource.is_ai_service (r : Resource) : Bool :=
  r.type = "aws_sagemaker_endpoint" ||
  r.type = "aws_bedrock_model_invocation_logging_configuration" ||
  r.type = "aws_bedrock_agent"

/-- `Resource.is_agent`. -/
def Resource.is_agent (r : Resource) : Bool :=
  r.type = "aws_bedrock_agent"

/-- `Resource.is_vector_store`. -/
def Resource.is_vector_store (r : Resource) : Bool :=
  strContainsSub r.type "opensearch" || strContainsSub r.type "vector"

/-- The result of a security rule evaluation (models.RuleResult). -/
structure RuleResult where
  rule_id : String
  resource_id : String
  is_compliant : Bool
  description : String
  severity : String
  remediation : String

/-- A node of a discovered attack path (models.AttackNode). -/
structure AttackNode where
  id : String
  type : String
deriving Repr, DecidableEq

/-- A discovered path of compromise (models.AttackPath); the risk score
`20 * number of nodes` is integral, so it is carried as a natural
number. -/
structure AttackPath where
  steps : List AttackNode
  risk_score : Nat
  severity : String
deriving Repr, DecidableEq

/-! ### Policy evaluator (attack_engine.py) -/

/-- `AttackEngine._to_list`. -/
def toPyList : Val → List Val
  | vList xs => xs
  | vStr s => [vStr s]
  | _ => []

/-- `AttackEngine._normalize_policy`: dicts pass through; strings are
stripped, heredoc-cleansed and parsed as JSON with a parse failure
yielding the empty dict; other values yield the empty dict.  Note that
`clean.split("EOF")[0]` keeps what stands *before* the first `"EOF"`, so
for a heredoc string the subsequent `replace` acts on `"<<"`. -/
def normalizePolicy (pol_ref : Val) : Val :=
  match pol_ref with
  | vDict kvs => vDict kvs
  | vStr s =>
    let clean := pyStrip s
    let clean2 :=
      if pyStartswith clean "<<EOF" then pyReplace (pySplitHead clean "EOF") "<<EOF" ""
      else if pyStartswith clean "<<-EOF" then pyReplace (pySplitHead clean "EOF") "<<-EOF" ""
      else clean
    match jsonLoads clean2 with
    | some v => v
    | none => vDict []
  | _ => vDict []

/-- `AttackEngine._check_action_match`: exact membership first, then
wildcard patterns (`act.rstrip("*")` as prefix); a non-string action
reaches `.endswith` and raises `AttributeError`. -/
def checkActionMatch : List Val → List String → Except PyErr Bool
  | [], _ => .ok false
  | a :: rest, ts =>
    match a with
    | vStr s =>
      if ts.contains s then .ok true
      else if pyEndswith s "*" then
        if ts.any (fun t => pyStartswith t (rstripStars s)) then .ok true
        else checkActionMatch rest ts
      else checkActionMatch rest ts
    | _ => .error .attributeError

/-- One iteration of the statement loop in `AttackEngine._check_permission`:
the Effect gate (a missing Effect defaults to "Allow"), then the admin,
service-wildcard, S3-specific and AI-specific checks in source order.
Non-dict statements are skipped.  The `NotAction` block of the source
computes a list and then `pass`es, so it contributes nothing. -/
def evalStmt (target_service : String) (target : Resource) (stmt : Val) : Except PyErr (Option String) :=
  match stmt with
  | vDict kvs =>
    let effect := dictGetD kvs "Effect" (vStr "Allow")
    if !(pyEqStr effect "Allow") then .ok none
    else
      let actions := toPyList (dictGetD kvs "Action" vNone)
      let resources := toPyList (dictGetD kvs "Resource" vNone)
      if listContainsStr actions "*" && listContainsStr resources "*" then
        .ok (some "Full Admin Access")
      else if actions.any (fun a => pyEqStr a (target_service ++ ":*")) && listContainsStr resources "*" then
        .ok (some ("Full " ++ pyUpper target_service ++ " Access"))
      else
        let ai : Except PyErr (Option String) :=
          if target.is_ai_service then
            match checkActionMatch actions ["bedrock:InvokeAgent"] with
            | .error e => .error e
            | .ok true => .ok (some "Agent Invocation")
            | .ok false =>
              match checkActionMatch actions ["bedrock:InvokeModel", "sagemaker:InvokeEndpoint"] with
              | .error e => .error e
              | .ok true => .ok (some "Model Invocation")
              | .ok false => .ok none
          else .ok none
        if target.type = "aws_s3_bucket" then
          match checkActionMatch actions ["s3:GetObject", "s3:PutObject", "s3:*"] with
          | .error e => .error e
          | .ok true =>
            if listContainsStr resources "*" || strContainsSub (pyStr (vList resources)) target.name then
              .ok (some "S3 Data Access")
            else ai
          | .ok false => ai
        else ai
  | _ => .ok none

/-- The statement loop of `_check_permission` over one policy's statement
list: first statement yielding a capability wins. -/
def evalStmts (target_service : String) (target : Resource) : List Val → Except PyErr (Option String)
  | [] => .ok none
  | s :: rest =>
    match evalStmt target_service target s with
    | .error e => .error e
    | .ok (some c) => .ok (some c)
    | .ok none => evalStmts target_service target rest

/-- The per-policy preamble of `_check_permission`: normalize, skip falsy
documents, fetch `Statement` (raising `AttributeError` on a non-dict
document), wrap a lone dict, and iterate (raising `TypeError` on a
non-iterable value). -/
def policyStatements (pol : Val) : Except PyErr (List Val) :=
  let doc := normalizePolicy pol
  if !(pyTruthy doc) then .ok []
  else
    match docGetD doc "Statement" (vList []) with
    | .error e => .error e
    | .ok stmts =>
      let stmts2 := match stmts with
        | vDict kvs => vList [vDict kvs]
        | x => x
      pyIter stmts2

/-- The policy loop of `_check_permission`. -/
def checkPermissionPols (target_service : String) (target : Resource) : List Val → Except PyErr (Option String)
  | [] => .ok none
  | pol :: rest =>
    match policyStatements pol with
    | .error e => .error e
    | .ok stmts =>
      match evalStmts target_service target stmts with
      | .error e => .error e
      | .ok (some c) => .ok (some c)
      | .ok none => checkPermissionPols target_service target rest

/-- `AttackEngine._check_permission`: `target.type.split("_")[1]` raises
`IndexError` when the type contains no underscore; otherwise the policies
are scanned in order. -/
def checkPermission (policies : List Val) (target : Resource) : Except PyErr (Option String) :=
  match pySplitChar target.type '_' with
  | _ :: ts :: _ => checkPermissionPols ts target policies
  | _ => .error .indexError

/-! ### Graphs -/

/-- The resource graph (the networkx DiGraph produced by GraphBuilder):
nodes in insertion order, each with its optional `resource` attribute;
edges in insertion order, each with its `relationship` attribute (the
builder sets it on every edge). -/
structure RGraph where
  nodes : List (String × Option Resource)
  edges : List (String × String × String)

/-- Node membership, `n in graph`. -/
def RGraph.hasNode (g : RGraph) (n : String) : Bool :=
  g.nodes.any (fun p => p.1 == n)

/-- `graph.nodes[n].get('resource')` (networkx guarantees the lookups in
the engine happen on present nodes; a missing node yields `none`). -/
def RGraph.nodeResource (g : RGraph) (n : String) : Option Resource :=
  match g.nodes.find? (fun p => p.1 == n) with
  | some p => p.2
  | none => none

/-- `graph.successors(n)`: one entry per (u, v) pair, in edge insertion
order. -/
def RGraph.successors (g : RGraph) (n : String) : List String :=
  g.edges.filterMap (fun e => if e.1 == n then some e.2.1 else none)

/-- The `relationship` entry of `graph.get_edge_data(u, v)`. -/
def RGraph.edgeRel (g : RGraph) (u v : String) : Option String :=
  match g.edges.find? (fun e => e.1 == u && e.2.1 == v) with
  | some e => some e.2.2
  | none => none

/-- An attack-graph edge with its `method` and `risk` attributes. -/
structure AEdge where
  src : String
  dst : String
  method : String
  risk : String
deriving Repr, DecidableEq

/-- The attack graph (a networkx DiGraph): nodes in insertion order,
edges in insertion order with one entry per (src, dst) pair. -/
structure AGraph where
  nodes : List String
  edges : List AEdge
deriving Repr, DecidableEq

/-- `add_node`. -/
def AGraph.addNode (g : AGraph) (n : String) : AGraph :=
  if g.nodes.contains n then g else ⟨g.nodes ++ [n], g.edges⟩

/-- `add_edge(u, v, method=m, risk=r)`: endpoints are added as nodes when
missing; re-adding an existing (u, v) edge overwrites its attributes in
place. -/
def AGraph.addEdge (g : AGraph) (u v m r : String) : AGraph :=
  let g2 := (g.addNode u).addNode v
  if g2.edges.any (fun e => e.src == u && e.dst == v) then
    ⟨g2.nodes, g2.edges.map (fun e => if e.src == u && e.dst == v then ⟨u, v, m, r⟩ else e)⟩
  else ⟨g2.nodes, g2.edges ++ [⟨u, v, m, r⟩]⟩

/-- Attack-graph node membership. -/
def AGraph.hasNode (g : AGraph) (n : String) : Bool :=
  g.nodes.contains n

/-- Attack-graph successors, in edge insertion order. -/
def AGraph.successors (g : AGraph) (n : String) : List String :=
  g.edges.filterMap (fun e => if e.src == n then some e.dst else none)

/-! ### Attack overlay construction (attack_engine.py) -/

/-- `AttackEngine._check_cidrs`. -/
def checkCidrs (cidrs : Val) : Bool :=
  if !(pyTruthy cidrs) then false
  else
    match cidrs with
    | vList cs =>
      cs.any (fun c =>
        match c with
        | vList inner => listContainsStr inner "0.0.0.0/0"
        | other => pyEqStr other "0.0.0.0/0")
    | _ => false

/-- `AttackEngine._is_sg_public`: ingress may be an object, a sequence of
objects, or a sequence of sequences of objects. -/
def isSgPublic (res : Resource) : Bool :=
  let ingress0 := dictGetD res.attributes "ingress" (vList [])
  let ingresses :=
    match ingress0 with
    | vList xs => xs
    | v => [v]
  ingresses.any (fun rule =>
    match rule with
    | vList subs =>
      subs.any (fun sub =>
        match sub with
        | vDict kvs => checkCidrs (dictGetD kvs "cidr_blocks" (vList []))
        | _ => false)
    | vDict kvs => checkCidrs (dictGetD kvs "cidr_blocks" (vList []))
    | _ => false)

/-- `AttackEngine._is_bucket_public`. -/
def isBucketPublic (res : Resource) : Bool :=
  let acl0 := dictGetD res.attributes "acl" (vStr "")
  let acl :=
    match acl0 with
    | vList (a :: _) => a
    | v => v
  pyEqStr acl "public-read" || pyEqStr acl "public-read-write"

/-- `AttackEngine._is_vector_store_exposed` (unconditionally true in the
source). -/
def isVectorStoreExposed (_res : Resource) : Bool :=
  true

/-- `AttackEngine._is_instance_publicly_exposed`: a `located_in` successor
subnet whose `map_public_ip_on_launch` stringifies (case-insensitively) to
"false" hides the instance; otherwise some `protected_by` security group
must be public. -/
def isInstancePubliclyExposed (g : RGraph) (res : Resource) : Bool :=
  if !(g.hasNode res.id) then false
  else if (g.successors res.id).any (fun succ =>
      g.edgeRel res.id succ == some "located_in" &&
      (match g.nodeResource succ with
       | some subnet =>
         pyLower (pyStr (dictGetD subnet.attributes "map_public_ip_on_launch" (vBool true))) == "false"
       | none => false))
  then false
  else (g.successors res.id).any (fun succ =>
      g.edgeRel res.id succ == some "protected_by" &&
      (match g.nodeResource succ with
       | some sg => isSgPublic sg
       | none => false))

/-- `AttackEngine._get_attached_policies`. -/
def getAttachedPolicies (g : RGraph) (role_id : String) : List Val :=
  if !(g.hasNode role_id) then []
  else
    (g.successors role_id).filterMap (fun succ =>
      if g.edgeRel role_id succ == some "has_policy" then
        match g.nodeResource succ with
        | some policy_res =>
          let raw := dictGetD policy_res.attributes "policy" vNone
          if pyTruthy raw then some raw else none
        | none => none
      else none)

/-- The body of the Phase 1 node loop of `_build_attack_overlay`. -/
def phase1Step (g : RGraph) (acc : AGraph) (p : String × Option Resource) : AGraph :=
  match p.2 with
  | none => acc
  | some res =>
    let acc1 :=
      if res.type = "aws_instance" && isInstancePubliclyExposed g res then
        acc.addEdge "Internet" p.1 "Network Reachability" "Exploit Public Service (SSRF/RCE)"
      else acc
    let acc2 :=
      if res.type = "aws_s3_bucket" && isBucketPublic res then
        acc1.addEdge "Internet" p.1 "Public ACL/Policy" "Data Leakage"
      else acc1
    if res.is_vector_store && isVectorStoreExposed res then
      acc2.addEdge "Internet" p.1 "Public Endpoint" "Knowledge Base Theft"
    else acc2

/-- The Phase 1 node loop. -/
def phase1Go (g : RGraph) : List (String × Option Resource) → AGraph → AGraph
  | [], ag => ag
  | p :: rest, ag => phase1Go g rest (phase1Step g ag p)

/-- Phase 1 of `_build_attack_overlay`: ingress edges from `Internet`. -/
def phase1 (g : RGraph) (ag : AGraph) : AGraph :=
  phase1Go g g.nodes ag

/-- The body of the Phase 2 edge loop. -/
def phase2Step (acc : AGraph) (e : String × String × String) : AGraph :=
  let acc1 :=
    if e.2.2 = "assumes_role" then
      acc.addEdge e.1 e.2.1 "IMDS/Credential Access" "Lateral Movement"
    else acc
  let acc2 :=
    if e.2.2 = "uses_identity" then
      acc1.addEdge e.1 e.2.1 "Prompt Injection / Tool Abuse" "Indirect Privilege Escalation"
    else acc1
  if e.2.2 = "linked_role" then
    acc2.addEdge e.1 e.2.1 "Identity Link" "Lateral Movement"
  else acc2

/-- The Phase 2 edge loop. -/
def phase2Go : List (String × String × String) → AGraph → AGraph
  | [], ag => ag
  | e :: rest, ag => phase2Go rest (phase2Step ag e)

/-- Phase 2 of `_build_attack_overlay`: identity-assumption edges. -/
def phase2 (g : RGraph) (ag : AGraph) : AGraph :=
  phase2Go g.edges ag

/-- The `roles` list of Phase 3. -/
def rolesOf (g : RGraph) : List String :=
  g.nodes.filterMap (fun p =>
    match p.2 with
    | some r => if r.type = "aws_iam_role" then some p.1 else none
    | none => none)

/-- The inner target loop of Phase 3: an exception in `_check_permission`
aborts the construction. -/
def phase3Inner (role_id : String) (policies : List Val) :
    List (String × Option Resource) → AGraph → Except PyErr AGraph
  | [], ag => .ok ag
  | (tid, tres) :: rest, ag =>
    match tres with
    | none => phase3Inner role_id policies rest ag
    | some target =>
      if tid = role_id then phase3Inner role_id policies rest ag
      else
        match checkPermission policies target with
        | .error e => .error e
        | .ok none => phase3Inner role_id policies rest ag
        | .ok (some cap) =>
          phase3Inner role_id policies rest (ag.addEdge role_id tid "IAM Permission allow" cap)

/-- The role loop of Phase 3. -/
def phase3Roles (g : RGraph) : List String → AGraph → Except PyErr AGraph
  | [], ag => .ok ag
  | role_id :: rest, ag =>
    match phase3Inner role_id (getAttachedPolicies g role_id) g.nodes ag with
    | .error e => .error e
    | .ok ag2 => phase3Roles g rest ag2

/-- The body of the Phase 4 edge loop. -/
def phase4Step (acc : AGraph) (e : String × String × String) : AGraph :=
  if e.2.2 = "logs_to" then
    acc.addEdge e.1 e.2.1 "Data Flow" "Log Poisoning / Indirect Write"
  else acc

/-- The Phase 4 edge loop. -/
def phase4Go : List (String × String × String) → AGraph → AGraph
  | [], ag => ag
  | e :: rest, ag => phase4Go rest (phase4Step ag e)

/-- Phase 4 of `_build_attack_overlay`: data-flow edges. -/
def phase4 (g : RGraph) (ag : AGraph) : AGraph :=
  phase4Go g.edges ag

/-- `AttackEngine._build_attack_overlay`: the `Internet` node, then phases
1-4; a raise inside Phase 3 aborts the construction. -/
def buildAttackOverlay (g : RGraph) : Except PyErr AGraph :=
  let ag0 : AGraph := ⟨["Internet"], []⟩
  let ag1 := phase1 g ag0
  let ag2 := phase2 g ag1
  match phase3Roles g (rolesOf g) ag2 with
  | .error e => .error e
  | .ok ag3 => .ok (phase4 g ag3)

/-- The state built by `AttackEngine.__init__(resource_graph,
rule_results)`. -/
structure AttackEngine where
  graph : RGraph
  rules : List RuleResult
  attack_graph : AGraph

/-- `AttackEngine.__init__`. -/
def attackEngineInit (resource_graph : RGraph) (rule_results : List RuleResult) :
    Except PyErr AttackEngine :=
  match buildAttackOverlay resource_graph with
  | .error e => .error e
  | .ok ag => .ok ⟨resource_graph, rule_results, ag⟩

/-! ### Path enumeration (networkx 3.2.1 semantics) -/

/-- Bounded DFS enumeration of the simple paths from `u` to `t` that avoid
`visited`, in adjacency order, with `fuel` bounding the number of edges.
This matches `networkx.all_simple_paths` (3.2.1): the search stops at the
target (so the target occurs only as the final node), the trivial path
`[t]` is produced when the source equals the target, and paths with more
than `fuel` edges are pruned. -/
def dfsPaths (succ : String → List String) (t : String) : Nat → List String → String → List (List String)
  | 0, _, u => if u = t then [[u]] else []
  | f + 1, visited, u =>
    if u = t then [[u]]
    else
      ((succ u).filter (fun v => !((u :: visited).contains v))).flatMap
        (fun v => (dfsPaths succ t f (u :: visited) v).map (fun p => u :: p))

/-- `networkx.all_simple_paths(g, source, target, cutoff)` as called by the
engines; `NodeNotFound` for an absent source or target is folded into an
empty result because both call sites catch it and continue. -/
def allSimplePaths (g : AGraph) (source target : String) (cutoff : Nat) : List (List String) :=
  if g.hasNode source && g.hasNode target then
    dfsPaths g.successors target cutoff [] source
  else []

/-- The length-minimal entry of a path list (the first such entry).
`networkx.shortest_path` returns some minimum-edge path and leaves the
choice among equals unspecified; the model fixes the first enumerated one,
and the stated theorems depend only on its length and endpoints. -/
def argminLen : List (List String) → Option (List String)
  | [] => none
  | p :: rest =>
    match argminLen rest with
    | none => some p
    | some q => if q.length < p.length then some q else some p

/-- Model of `networkx.shortest_path(g, source, target)` with default
weight: `none` covers both `NodeNotFound` and `NetworkXNoPath`, which the
caller catches identically. -/
def shortestPathModel (g : AGraph) (source target : String) : Option (List String) :=
  if g.hasNode source && g.hasNode target then
    argminLen (dfsPaths g.successors target g.nodes.length [] source)
  else none

/-! ### find_critical_path (attack_engine.py) -/

/-- The sink list of `find_critical_path`: `logs_to` targets in edge order
(duplicates kept), then bucket nodes not already present, in node
order. -/
def criticalTargets (g : RGraph) : List String :=
  let t1 := g.edges.filterMap (fun e => if e.2.2 = "logs_to" then some e.2.1 else none)
  g.nodes.foldl (fun acc p =>
    match p.2 with
    | some res => if res.type = "aws_s3_bucket" && !(acc.contains p.1) then acc ++ [p.1] else acc
    | none => acc) t1

/-- The `AttackPath` assembled by `find_critical_path` from a node-id
sequence: node types come from the resource graph, defaulting to
"External". -/
def mkAttackPath (g : RGraph) (path_ids : List String) : AttackPath :=
  let nodes := path_ids.map (fun pid =>
    match g.nodeResource pid with
    | some res => AttackNode.mk pid res.type
    | none => AttackNode.mk pid "External")
  ⟨nodes, nodes.length * 20, "Critical"⟩

/-- The target loop of `find_critical_path`: skips sinks absent from the
attack graph and unreachable sinks, and keeps the first strictly shorter
path. -/
def criticalLoop (g : RGraph) (ag : AGraph) : List String → Option AttackPath → Option AttackPath
  | [], best => best
  | t :: rest, best =>
    if !(ag.hasNode t) then criticalLoop g ag rest best
    else
      match shortestPathModel ag "Internet" t with
      | none => criticalLoop g ag rest best
      | some path_ids =>
        let path := mkAttackPath g path_ids
        match best with
        | none => criticalLoop g ag rest (some path)
        | some b =>
          if path.steps.length < b.steps.length then criticalLoop g ag rest (some path)
          else criticalLoop g ag rest best

/-- `AttackEngine.find_critical_path`. -/
def findCriticalPath (g : RGraph) (ag : AGraph) : Option AttackPath :=
  let targets := criticalTargets g
  if targets.isEmpty then none
  else criticalLoop g ag targets none

/-! ### Fix engine (fix_engine.py) -/

/-- A prioritized remediation (fix_engine.Remediation). -/
structure Remediation where
  id : String
  description : String
  paths_blocked : Nat
  edge_source : String
  edge_target : String
  risk_type : String
deriving Repr, DecidableEq

/-- `FixEngine._find_all_paths`: all simple paths from `Internet` to each
target with a cutoff of 10 edges, concatenated in target order. -/
def findAllPaths (g : AGraph) (targets : List String) : List (List String) :=
  targets.flatMap (fun t => allSimplePaths g "Internet" t 10)

/-- Consecutive pairs of a path: the edges it traverses. -/
def pathEdges : List String → List (String × String)
  | u :: v :: rest => (u, v) :: pathEdges (v :: rest)
  | _ => []

/-- Insert-or-increment on the insertion-ordered `edge_counts` dict. -/
def bumpCount (counts : List ((String × String) × Nat)) (e : String × String) :
    List ((String × String) × Nat) :=
  match counts with
  | [] => [(e, 1)]
  | (e', n) :: rest => if e' = e then (e', n + 1) :: rest else (e', n) :: bumpCount rest e

/-- Accumulation of one path's edges into the `edge_counts` dict. -/
def bumpAll : List ((String × String) × Nat) → List (String × String) →
    List ((String × String) × Nat)
  | acc, [] => acc
  | acc, e :: rest => bumpAll (bumpCount acc e) rest

/-- The path loop of the `edge_counts` accumulation. -/
def edgeCountsGo : List ((String × String) × Nat) → List (List String) →
    List ((String × String) × Nat)
  | acc, [] => acc
  | acc, p :: rest => edgeCountsGo (bumpAll acc (pathEdges p)) rest

/-- The `edge_counts` accumulation of `calculate_fix_order`: paths in
order, each path's edges left to right. -/
def edgeCounts (paths : List (List String)) : List ((String × String) × Nat) :=
  edgeCountsGo [] paths

/-- Python `max(d, key=d.get)` over an insertion-ordered dict: the first
key of maximal value (`max` replaces its best only on strictly greater
values). -/
def maxByVal : List ((String × String) × Nat) → Option ((String × String) × Nat)
  | [] => none
  | (e, n) :: rest =>
    match maxByVal rest with
    | none => some (e, n)
    | some (e', n') => if n' > n then some (e', n') else some (e, n)

/-- `method` and `risk` of an attack-graph edge with the `.get` defaults of
`calculate_fix_order` (the selected edge always exists in the working
graph, so the defaults are never produced there). -/
def AGraph.edgeMethodRisk (g : AGraph) (u v : String) : String × String :=
  match g.edges.find? (fun e => e.src == u && e.dst == v) with
  | some e => (e.method, e.risk)
  | none => ("Unknown Method", "Unknown Risk")

/-- `remove_edge(u, v)` (the node set is unchanged). -/
def AGraph.removeEdge (g : AGraph) (u v : String) : AGraph :=
  ⟨g.nodes, g.edges.filter (fun e => !(e.src == u && e.dst == v))⟩

/-- `FixEngine._get_fix_description`. -/
def getFixDescription (method source target : String) : String :=
  if method = "Network Reachability" then
    "Restrict Security Group on " ++ target ++ " (Remove 0.0.0.0/0)"
  else if method = "Public ACL/Policy" then
    "Make S3 Bucket " ++ target ++ " Private (Block Public Access)"
  else if method = "IMDS/Credential Access" then
    "Enforce IMDSv2 on " ++ source ++ " to prevent credential theft"
  else if method = "IAM Permission allow" then
    "Scope down IAM Policy on " ++ source ++ " to deny access to " ++ target
  else if method = "Prompt Injection / Tool Abuse" then
    "Implement Input Guardrails on Agent " ++ source ++ " or restrict Role " ++ target
  else if method = "Data Flow" then
    "Encrypt Logs or Restrict Write Access from " ++ source ++ " to " ++ target
  else if method = "Public Endpoint" then
    "Enable VPC Access Policy for Vector Store " ++ target
  else
    "Break relationship between " ++ source ++ " and " ++ target

/-- `FIX-%03d` numbering. -/
def pad3 (n : Nat) : String :=
  if n < 10 then "00" ++ toString n
  else if n < 100 then "0" ++ toString n
  else toString n

/-- One iteration of the `calculate_fix_order` loop: `none` models both
`break`s (no paths, or an empty `edge_counts`); `k` is the number of
remediations already emitted. -/
def fixStep (g : AGraph) (targets : List String) (k : Nat) : Option (Remediation × AGraph) :=
  let all_paths := findAllPaths g targets
  if all_paths.isEmpty then none
  else
    match maxByVal (edgeCounts all_paths) with
    | none => none
    | some (e, count) =>
      let mr := g.edgeMethodRisk e.1 e.2
      some (⟨"FIX-" ++ pad3 (k + 1), getFixDescription mr.1 e.1 e.2, count, e.1, e.2, mr.2⟩,
            g.removeEdge e.1 e.2)

/-- The `while True` loop of `calculate_fix_order`, with fuel; the source
loop terminates because each iteration removes an edge, and the fuel used
by `calculateFixOrder` is shown below to reach the break. -/
def fixLoop (targets : List String) : Nat → AGraph → Nat → List Remediation × AGraph
  | 0, g, _ => ([], g)
  | f + 1, g, k =>
    match fixStep g targets k with
    | none => ([], g)
    | some (rem, g2) =>
      let r := fixLoop targets f g2 (k + 1)
      (rem :: r.1, r.2)

/-- `FixEngine.calculate_fix_order`, operating on a copy of the attack
graph. -/
def calculateFixOrder (attack_graph : AGraph) (targets : List String) : List Remediation :=
  (fixLoop targets (attack_graph.edges.length + 1) attack_graph 0).1

/-! ### Auxiliary definitions used by the theorems below -/

/-- The graph produced by one iteration of the fix loop (the remediation
counter does not influence the graph). -/
def fixStepGraph (targets : List String) (g : AGraph) : AGraph :=
  match fixStep g targets 0 with
  | some pr => pr.2
  | none => g

/-- The working graph of `calculate_fix_order` before iteration `k`. -/
def fixGraphAt (targets : List String) (g : AGraph) : Nat → AGraph
  | 0 => g
  | k + 1 => fixStepGraph targets (fixGraphAt targets g k)

/-- A small well-formed attack graph for the C8 witness. -/
def c8g : AGraph :=
  ⟨["Internet", "b1", "b2"],
   [⟨"Internet", "b1", "Public ACL/Policy", "Data Leakage"⟩,
    ⟨"Internet", "b2", "Public ACL/Policy", "Data Leakage"⟩]⟩

/-- Lookup in the insertion-ordered counts dict (0 for an absent key). -/
def countVal : List ((String × String) × Nat) → (String × String) → Nat
  | [], _ => 0
  | (e', n) :: rest, e => if e' = e then n else countVal rest e

/-- A two-bucket attack graph on which the fix loop's tie-break is
observable. -/
def c7g : AGraph :=
  ⟨["Internet", "aws_s3_bucket.zz", "aws_s3_bucket.aa"],
   [⟨"Internet", "aws_s3_bucket.zz", "Public ACL/Policy", "Data Leakage"⟩,
    ⟨"Internet", "aws_s3_bucket.aa", "Public ACL/Policy", "Data Leakage"⟩]⟩

/-- The sink list of `c7g`. -/
def c7t : List String := ["aws_s3_bucket.zz", "aws_s3_bucket.aa"]

/-- The first remediation emitted on `c7g`. -/
def c7rem : Remediation :=
  ⟨"FIX-001", "Make S3 Bucket aws_s3_bucket.zz Private (Block Public Access)", 1,
   "Internet", "aws_s3_bucket.zz", "Data Leakage"⟩

/-- A resource graph with two public buckets and no edges, and the sink
order it induces. -/
def g5 : RGraph :=
  ⟨[("aws_s3_bucket.zz", some ⟨"aws_s3_bucket.zz", "aws_s3_bucket", "zz", []⟩),
    ("aws_s3_bucket.aa", some ⟨"aws_s3_bucket.aa", "aws_s3_bucket", "aa", []⟩)], []⟩

/-- An attack graph exposing both buckets of `g5` directly from
`Internet`. -/
def ag5 : AGraph :=
  ⟨["Internet", "aws_s3_bucket.zz", "aws_s3_bucket.aa"],
   [⟨"Internet", "aws_s3_bucket.zz", "Public ACL/Policy", "Data Leakage"⟩,
    ⟨"Internet", "aws_s3_bucket.aa", "Public ACL/Policy", "Data Leakage"⟩]⟩

/-- The `AttackPath` that `find_critical_path` produces on `g5`/`ag5`. -/
def c5ap : AttackPath :=
  ⟨[⟨"Internet", "External"⟩, ⟨"aws_s3_bucket.zz", "aws_s3_bucket"⟩], 40, "Critical"⟩

/-- A resource graph holding only the sink bucket of the 12-edge chain. -/
def g6 : RGraph :=
  ⟨[("aws_s3_bucket.data", some ⟨"aws_s3_bucket.data", "aws_s3_bucket", "data", []⟩)], []⟩

/-- An attack graph that is a single chain of 12 edges from `Internet` to
the bucket sink, with no shorter route. -/
def ag6 : AGraph :=
  ⟨["Internet", "n01", "n02", "n03", "n04", "n05", "n06", "n07", "n08", "n09", "n10",
    "n11", "aws_s3_bucket.data"],
   [⟨"Internet", "n01", "IAM Permission allow", "Privilege Escalation"⟩,
    ⟨"n01", "n02", "IAM Permission allow", "Privilege Escalation"⟩,
    ⟨"n02", "n03", "IAM Permission allow", "Privilege Escalation"⟩,
    ⟨"n03", "n04", "IAM Permission allow", "Privilege Escalation"⟩,
    ⟨"n04", "n05", "IAM Permission allow", "Privilege Escalation"⟩,
    ⟨"n05", "n06", "IAM Permission allow", "Privilege Escalation"⟩,
    ⟨"n06", "n07", "IAM Permission allow", "Privilege Escalation"⟩,
    ⟨"n07", "n08", "IAM Permission allow", "Privilege Escalation"⟩,
    ⟨"n08", "n09", "IAM Permission allow", "Privilege Escalation"⟩,
    ⟨"n09", "n10", "IAM Permission allow", "Privilege Escalation"⟩,
    ⟨"n10", "n11", "IAM Permission allow", "Privilege Escalation"⟩,
    ⟨"n11", "aws_s3_bucket.data", "IAM Permission allow", "Data Leakage"⟩]⟩

/-- The 13-node critical path that `find_critical_path` still reports on
the 12-edge chain. -/
def c6ap : AttackPath :=
  ⟨[⟨"Internet", "External"⟩, ⟨"n01", "External"⟩, ⟨"n02", "External"⟩,
    ⟨"n03", "External"⟩, ⟨"n04", "External"⟩, ⟨"n05", "External"⟩,
    ⟨"n06", "External"⟩, ⟨"n07", "External"⟩, ⟨"n08", "External"⟩,
    ⟨"n09", "External"⟩, ⟨"n10", "External"⟩, ⟨"n11", "External"⟩,
    ⟨"aws_s3_bucket.data", "aws_s3_bucket"⟩], 260, "Critical"⟩

/-! ### Basic dictionary lemmas -/

/-- A plain S3 bucket resource used in concrete evaluations. -/
def demoBucket : Resource := ⟨"aws_s3_bucket.b", "aws_s3_bucket", "b", []⟩

/-- A resource whose type string has no underscore (the data model allows
the type `Other`). -/
def otherResource : Resource := ⟨"other.x", "Other", "x", []⟩

/-- The heredoc-quoted wildcard-admin policy payload of claim C1. -/
def heredocAdminPolicy : String :=
  "<<EOF\n\x7b\"Statement\": [\x7b\"Effect\": \"Allow\", \"Action\": \"*\", \"Resource\": \"*\"\x7d]\x7d\nEOF"

/-- The JSON body carried by `heredocAdminPolicy`. -/
def heredocAdminBody : String :=
  "\x7b\"Statement\": [\x7b\"Effect\": \"Allow\", \"Action\": \"*\", \"Resource\": \"*\"\x7d]\x7d"

/-- A policy whose first statement grants only `s3:GetObject` on `*` and
whose second statement is a wildcard-admin statement. -/
def c3pol : Val := vDict [("Statement", vList
  [vDict [("Effect", vStr "Allow"), ("Action", vStr "s3:GetObject"), ("Resource", vStr "*")],
   vDict [("Effect", vStr "Allow"), ("Action", vStr "*"), ("Resource", vStr "*")]])]

/-- Whether every entry of a statement's listified `Action` value is a
string (non-dict statements are skipped by the evaluator and impose
nothing). -/
def actionsAllStrings (stmt : Val) : Bool :=
  match stmt with
  | vDict kvs =>
    (toPyList (dictGetD kvs "Action" vNone)).all (fun a =>
      match a with
      | vStr _ => true
      | _ => false)
  | _ => true

/-- A policy payload is benign for claim C2 when its normalized document is
falsy (skipped) or is a dict whose `Statement` value is a dict, a string,
or a list of statements each with string-only actions. -/
def policyBenign (pol : Val) : Bool :=
  let doc := normalizePolicy pol
  !(pyTruthy doc) ||
  (match doc with
   | vDict kvs =>
     (match dictGetD kvs "Statement" (vList []) with
      | vDict kvs' => actionsAllStrings (vDict kvs')
      | vList stmts => stmts.all actionsAllStrings
      | vStr _ => true
      | _ => false)
   | _ => false)

/-- The statement sequence scanned by `_check_permission` over the whole
policy collection, in evaluation order (an exception in a policy's
preamble propagates). -/
def flattenStatements : List Val → Except PyErr (List Val)
  | [] => .ok []
  | pol :: rest =>
    match policyStatements pol with
    | .error e => .error e
    | .ok stmts =>
      match flattenStatements rest with
      | .error e => .error e
      | .ok more => .ok (stmts ++ more)

/-- A statement matching no capability check for a bucket target. -/
def c3stmtEc2 : Val :=
  vDict [("Effect", vStr "Allow"), ("Action", vStr "ec2:StartInstances"), ("Resource", vStr "*")]

/-- The wildcard-admin statement. -/
def c3stmtAdmin : Val :=
  vDict [("Effect", vStr "Allow"), ("Action", vStr "*"), ("Resource", vStr "*")]

/-- A policy whose first statement matches nothing and whose second is the
wildcard-admin statement. -/
def c3amendPol : Val := vDict [("Statement", vList [c3stmtEc2, c3stmtAdmin])]

/-- Well-formedness of an attack graph as maintained by networkx: one
entry per (src, dst) pair and edge endpoints present as nodes. -/
def AGraphWF (ag : AGraph) : Prop :=
  (ag.edges.map (fun e => (e.src, e.dst))).Nodup ∧
  ∀ e ∈ ag.edges, e.src ∈ ag.nodes ∧ e.dst ∈ ag.nodes

/-- The Phase 1 ingress edge for an instance node. -/
def nrEdge (n : String) : AEdge :=
  ⟨"Internet", n, "Network Reachability", "Exploit Public Service (SSRF/RCE)"⟩

/-- Claim C4's condition (i): an outgoing `located_in` edge reaches a
subnet whose `map_public_ip_on_launch` attribute stringifies
case-insensitively to "false". -/
def hiddenByPrivateSubnet (g : RGraph) (n : String) : Prop :=
  ∃ v ∈ g.successors n, g.edgeRel n v = some "located_in" ∧
    ∃ subnet, g.nodeResource v = some subnet ∧
      pyLower (pyStr (dictGetD subnet.attributes "map_public_ip_on_launch" (vBool true))) = "false"

/-- Claim C4's condition (ii): some `protected_by` edge reaches a security
group whose ingress contains the CIDR `0.0.0.0/0`. -/
def openSgExposure (g : RGraph) (n : String) : Prop :=
  ∃ v ∈ g.successors n, g.edgeRel n v = some "protected_by" ∧
    ∃ sg, g.nodeResource v = some sg ∧ isSgPublic sg = true

/-- A publicly exposed instance for the C4 witness. -/
def c4res : Resource := ⟨"aws_instance.web", "aws_instance", "web", []⟩

/-- Its open security group. -/
def c4sg : Resource := ⟨"aws_security_group.open", "aws_security_group", "open",
  [("ingress", vList [vDict [("cidr_blocks", vList [vStr "0.0.0.0/0"])]])]⟩

/-- A resource graph with one instance protected by an open group. -/
def c4g : RGraph := ⟨[("aws_instance.web", some c4res), ("aws_security_group.open", some c4sg)],
  [("aws_instance.web", "aws_security_group.open", "protected_by")]⟩

/-- The path shapes produced by `dfsPaths`: the list starts at `u`, each
step follows a `succ` edge into a node outside the accumulated visited
set, and the walk stops at its first arrival at `t`. -/
def goodPathB (succ : String → List String) (t : String) :
    List String → String → List String → Bool
  | _, u, [x] => x == u && u == t
  | visited, u, x :: y :: rest =>
    x == u && !(u == t) && (succ u).contains y && !((u :: visited).contains y) &&
      goodPathB succ t (u :: visited) y (y :: rest)
  | _, _, [] => false

theorem dictGetD_of_not_hasKey (kvs : List (String × Val)) (k : String) (d : Val)
    (h : dictHasKey kvs k = false) : dictGetD kvs k d = d := by
  induction kvs with
  | nil => rfl
  | cons kv rest ih =>
    obtain ⟨k', v⟩ := kv
    simp only [dictHasKey, List.any_cons, Bool.or_eq_false_iff] at h
    have hk : k' ≠ k := by
      intro he
      simp [he] at h
    simp only [dictGetD, if_neg hk]
    exact ih (by simpa [dictHasKey] using h.2)

theorem dictGetD_cons_ne (k' : String) (v : Val) (kvs : List (String × Val)) (k : String)
    (d : Val) (h : k' ≠ k) : dictGetD ((k', v) :: kvs) k d = dictGetD kvs k d := by
  simp [dictGetD, if_neg h]

/-! ### Shared concrete inputs -/

/-! ### C1 -/

/-- C1 (code bug evidence): the heredoc body is well-formed JSON whose lone
statement grants full admin access when presented directly, yet
`_normalize_policy` turns the heredoc-quoted payload into the empty
document because `clean.split("EOF")[0]` keeps only `"<<"`, and the policy
consequently grants nothing. -/
theorem c1_heredoc_policy_dropped :
    jsonLoads heredocAdminBody =
      some (vDict [("Statement", vList
        [vDict [("Effect", vStr "Allow"), ("Action", vStr "*"), ("Resource", vStr "*")]])]) ∧
    checkPermission [vDict [("Statement", vList
        [vDict [("Effect", vStr "Allow"), ("Action", vStr "*"), ("Resource", vStr "*")]])]]
      demoBucket = .ok (some "Full Admin Access") ∧
    pySplitHead (pyStrip heredocAdminPolicy) "EOF" = "<<" ∧
    normalizePolicy (vStr heredocAdminPolicy) = vDict [] ∧
    checkPermission [vStr heredocAdminPolicy] demoBucket = .ok none :=
  ⟨rfl, rfl, rfl, rfl, rfl⟩

/-! ### C2: counterexample -/

/-- C2 counterexample: with a target resource of type `Other` (no
underscore), `_check_permission` raises `IndexError` at
`target.type.split("_")[1]` even for an empty policy list, so policy
evaluation does not always complete without raising. -/
theorem c2_counterexample :
    checkPermission [] otherResource = .error .indexError :=
  rfl

/-! ### C9 -/

/-- C9: the attack-graph construction never reads the rule results, so for
a fixed resource graph any two rule-result lists produce identical attack
graphs (same nodes and same edges with their method/risk attributes). -/
theorem c9_attack_graph_ignores_rule_results (g : RGraph) (r1 r2 : List RuleResult) :
    (attackEngineInit g r1).map AttackEngine.attack_graph =
      (attackEngineInit g r2).map AttackEngine.attack_graph := by
  unfold attackEngineInit
  cases buildAttackOverlay g <;> rfl

/-! ### C10 -/

/-- C10: a policy statement lacking an Effect field entirely is evaluated
exactly as if Effect were "Allow" (its actions and resources can grant
capabilities), while a statement whose Effect is present and not equal to
"Allow" yields nothing. -/
theorem c10_effect_gate :
    (∀ (sv : String) (target : Resource) (kvs : List (String × Val)),
        dictHasKey kvs "Effect" = false →
        evalStmt sv target (vDict kvs) =
          evalStmt sv target (vDict (("Effect", vStr "Allow") :: kvs))) ∧
    (∀ (sv : String) (target : Resource) (kvs : List (String × Val)),
        pyEqStr (dictGetD kvs "Effect" (vStr "Allow")) "Allow" = false →
        evalStmt sv target (vDict kvs) = .ok none) := by
  constructor
  · intro sv target kvs h
    have hA : dictGetD (("Effect", vStr "Allow") :: kvs) "Action" vNone =
        dictGetD kvs "Action" vNone :=
      dictGetD_cons_ne _ _ _ _ _ (by decide)
    have hR : dictGetD (("Effect", vStr "Allow") :: kvs) "Resource" vNone =
        dictGetD kvs "Resource" vNone :=
      dictGetD_cons_ne _ _ _ _ _ (by decide)
    have hE : dictGetD (("Effect", vStr "Allow") :: kvs) "Effect" (vStr "Allow") =
        vStr "Allow" := by
      simp [dictGetD]
    simp only [evalStmt, dictGetD_of_not_hasKey _ _ _ h, hA, hR, hE]
  · intro sv target kvs h
    simp [evalStmt, h]

/-- Witness for C10: a statement without Effect grants Full Admin Access,
and a statement with Effect "Deny" grants nothing. -/
theorem c10_effect_gate_witness :
    (dictHasKey [("Action", vStr "*"), ("Resource", vStr "*")] "Effect" = false ∧
     evalStmt "s3" demoBucket (vDict [("Action", vStr "*"), ("Resource", vStr "*")]) =
       evalStmt "s3" demoBucket
         (vDict [("Effect", vStr "Allow"), ("Action", vStr "*"), ("Resource", vStr "*")]) ∧
     evalStmt "s3" demoBucket (vDict [("Action", vStr "*"), ("Resource", vStr "*")]) =
       .ok (some "Full Admin Access")) ∧
    (pyEqStr (dictGetD [("Effect", vStr "Deny"), ("Action", vStr "*"), ("Resource", vStr "*")]
        "Effect" (vStr "Allow")) "Allow" = false ∧
     evalStmt "s3" demoBucket
       (vDict [("Effect", vStr "Deny"), ("Action", vStr "*"), ("Resource", vStr "*")]) =
       .ok none) :=
  ⟨⟨rfl, c10_effect_gate.1 "s3" demoBucket _ rfl, rfl⟩,
   ⟨rfl, c10_effect_gate.2 "s3" demoBucket _ rfl⟩⟩

/-! ### C3: counterexample -/

/-- C3 counterexample: the attached policy contains an Allow statement with
`Action == "*"` and `Resource == "*"` (shown by evaluating it alone), yet
the evaluator returns "S3 Data Access" because the earlier `s3:GetObject`
statement matches a lower-priority check first — the priority order is
applied per statement, not across the whole document collection. -/
theorem c3_counterexample :
    evalStmt "s3" demoBucket
        (vDict [("Effect", vStr "Allow"), ("Action", vStr "*"), ("Resource", vStr "*")]) =
      .ok (some "Full Admin Access") ∧
    checkPermission [c3pol] demoBucket = .ok (some "S3 Data Access") ∧
    (Except.ok (some "S3 Data Access") : Except PyErr (Option String)) ≠
      .ok (some "Full Admin Access") := by
  refine ⟨rfl, rfl, ?_⟩
  intro h
  simp at h

/-! ### C2: amended -/

theorem checkActionMatch_ok (acts : List Val) (ts : List String)
    (h : acts.all (fun a => match a with | vStr _ => true | _ => false) = true) :
    ∃ b, checkActionMatch acts ts = .ok b := by
  induction acts with
  | nil => exact ⟨false, rfl⟩
  | cons a rest ih =>
    simp only [List.all_cons, Bool.and_eq_true] at h
    match a, h.1 with
    | vStr s, _ =>
      obtain ⟨b, hb⟩ := ih h.2
      show ∃ b, (if ts.contains s = true then Except.ok true
        else if pyEndswith s "*" = true then
          if ts.any (fun t => pyStartswith t (rstripStars s)) = true then Except.ok true
          else checkActionMatch rest ts
        else checkActionMatch rest ts) = .ok b
      by_cases h1 : ts.contains s = true
      · rw [if_pos h1]; exact ⟨true, rfl⟩
      · rw [if_neg h1]
        by_cases h2 : pyEndswith s "*" = true
        · rw [if_pos h2]
          by_cases h3 : ts.any (fun t => pyStartswith t (rstripStars s)) = true
          · rw [if_pos h3]; exact ⟨true, rfl⟩
          · rw [if_neg h3]; exact ⟨b, hb⟩
        · rw [if_neg h2]; exact ⟨b, hb⟩

theorem evalStmt_ok (sv : String) (target : Resource) (stmt : Val)
    (h : actionsAllStrings stmt = true) :
    ∃ r, evalStmt sv target stmt = .ok r := by
  match stmt with
  | vStr _ => exact ⟨none, rfl⟩
  | vInt _ => exact ⟨none, rfl⟩
  | vBool _ => exact ⟨none, rfl⟩
  | vList _ => exact ⟨none, rfl⟩
  | vNone => exact ⟨none, rfl⟩
  | vDict kvs =>
    simp only [actionsAllStrings] at h
    simp only [evalStmt]
    by_cases he : pyEqStr (dictGetD kvs "Effect" (vStr "Allow")) "Allow"
    · simp only [he, Bool.not_true, Bool.false_eq_true, if_false]
      set actions := toPyList (dictGetD kvs "Action" vNone) with hacts
      set resources := toPyList (dictGetD kvs "Resource" vNone) with hres
      by_cases h1 : listContainsStr actions "*" && listContainsStr resources "*"
      · exact ⟨some "Full Admin Access", by simp [h1]⟩
      · simp only [h1, Bool.false_eq_true, if_false]
        by_cases h2 : (actions.any fun a => pyEqStr a (sv ++ ":*")) && listContainsStr resources "*"
        · exact ⟨some ("Full " ++ pyUpper sv ++ " Access"), by simp [h2]⟩
        · simp only [h2, Bool.false_eq_true, if_false]
          have hai : ∃ r, (if target.is_ai_service = true then
              match checkActionMatch actions ["bedrock:InvokeAgent"] with
              | Except.error e => Except.error e
              | Except.ok true => Except.ok (some "Agent Invocation")
              | Except.ok false =>
                match checkActionMatch actions ["bedrock:InvokeModel", "sagemaker:InvokeEndpoint"] with
                | Except.error e => Except.error e
                | Except.ok true => Except.ok (some "Model Invocation")
                | Except.ok false => Except.ok none
              else Except.ok none) = .ok r := by
            by_cases hsvc : target.is_ai_service
            · obtain ⟨b1, hb1⟩ := checkActionMatch_ok actions ["bedrock:InvokeAgent"] h
              obtain ⟨b2, hb2⟩ := checkActionMatch_ok actions ["bedrock:InvokeModel", "sagemaker:InvokeEndpoint"] h
              cases b1 with
              | true => exact ⟨some "Agent Invocation", by simp [hsvc, hb1]⟩
              | false =>
                cases b2 with
                | true => exact ⟨some "Model Invocation", by simp [hsvc, hb1, hb2]⟩
                | false => exact ⟨none, by simp [hsvc, hb1, hb2]⟩
            · exact ⟨none, by simp [hsvc]⟩
          obtain ⟨rai, hrai⟩ := hai
          by_cases hs3 : target.type = "aws_s3_bucket"
          · obtain ⟨b3, hb3⟩ := checkActionMatch_ok actions ["s3:GetObject", "s3:PutObject", "s3:*"] h
            cases b3 with
            | true =>
              by_cases h4 : listContainsStr resources "*" || strContainsSub (pyStr (vList resources)) target.name
              · exact ⟨some "S3 Data Access", by simp [hs3, hb3, h4]⟩
              · exact ⟨rai, by simp [hs3, hb3, h4, hrai]⟩
            | false => exact ⟨rai, by simp [hs3, hb3, hrai]⟩
          · exact ⟨rai, by simp [hs3, hrai]⟩
    · refine ⟨none, ?_⟩
      simp [he]

theorem policyStatements_ok (pol : Val) (h : policyBenign pol = true) :
    ∃ stmts, policyStatements pol = .ok stmts ∧ stmts.all actionsAllStrings = true := by
  simp only [policyBenign] at h
  simp only [policyStatements]
  by_cases ht : pyTruthy (normalizePolicy pol) = true
  · rw [ht] at h
    simp only [Bool.not_true, Bool.false_or] at h
    rw [ht]
    simp only [Bool.not_true, Bool.false_eq_true, if_false]
    cases hdoc : normalizePolicy pol with
    | vDict kvs =>
      simp only [hdoc] at h
      simp only [docGetD]
      cases hs : dictGetD kvs "Statement" (vList []) with
      | vDict kvs' =>
        simp only [hs] at h
        exact ⟨[vDict kvs'], rfl, by simp [List.all_cons, h]⟩
      | vList stmts =>
        simp only [hs] at h
        exact ⟨stmts, rfl, h⟩
      | vStr s =>
        refine ⟨s.data.map (fun c => vStr (String.mk [c])), rfl, ?_⟩
        simp [List.all_map, actionsAllStrings, Function.comp]
      | vInt n => simp [hs] at h
      | vBool b => simp [hs] at h
      | vNone => simp [hs] at h
    | vStr s => simp [hdoc] at h
    | vInt n => simp [hdoc] at h
    | vBool b => simp [hdoc] at h
    | vList xs => simp [hdoc] at h
    | vNone => simp [hdoc] at h
  · refine ⟨[], ?_, rfl⟩
    rw [Bool.not_eq_true] at ht
    rw [ht]
    rfl


theorem evalStmts_ok (sv : String) (target : Resource) (stmts : List Val)
    (h : stmts.all actionsAllStrings = true) :
    ∃ r, evalStmts sv target stmts = .ok r := by
  induction stmts with
  | nil => exact ⟨none, rfl⟩
  | cons s rest ih =>
    simp only [List.all_cons, Bool.and_eq_true] at h
    obtain ⟨r1, hr1⟩ := evalStmt_ok sv target s h.1
    obtain ⟨r2, hr2⟩ := ih h.2
    unfold evalStmts
    rw [hr1]
    cases r1 with
    | some c => exact ⟨some c, rfl⟩
    | none => exact ⟨r2, hr2⟩

theorem checkPermissionPols_ok (sv : String) (target : Resource) (pols : List Val)
    (h : pols.all policyBenign = true) :
    ∃ r, checkPermissionPols sv target pols = .ok r := by
  induction pols with
  | nil => exact ⟨none, rfl⟩
  | cons pol rest ih =>
    simp only [List.all_cons, Bool.and_eq_true] at h
    obtain ⟨stmts, hst, hall⟩ := policyStatements_ok pol h.1
    obtain ⟨r1, hr1⟩ := evalStmts_ok sv target stmts hall
    obtain ⟨r2, hr2⟩ := ih h.2
    unfold checkPermissionPols
    simp only [hst, hr1]
    cases r1 with
    | some c => exact ⟨some c, rfl⟩
    | none => exact ⟨r2, hr2⟩

theorem splitChar_length (sep : Char) (cs : List Char) :
    (splitChar sep cs).length = List.count sep cs + 1 := by
  induction cs with
  | nil => rfl
  | cons c rest ih =>
    simp only [splitChar]
    by_cases hc : c = sep
    · rw [if_pos hc]
      subst hc
      simp [List.count_cons, ih]
    · rw [if_neg hc]
      cases hr : splitChar sep rest with
      | nil => rw [hr] at ih; simp at ih
      | cons hd tl =>
        rw [hr] at ih
        simp only [List.length_cons] at ih ⊢
        rw [List.count_cons]
        simp [hc, ← ih]

theorem pySplitChar_underscore (ty : String) (h : ty.data.contains '_' = true) :
    ∃ a b rest, pySplitChar ty '_' = a :: b :: rest := by
  have hc : 0 < List.count '_' ty.data := by
    simp at h
    exact List.count_pos_iff.mpr h
  have hl : 2 ≤ (splitChar '_' ty.data).length := by
    rw [splitChar_length]
    omega
  unfold pySplitChar
  cases hs : splitChar '_' ty.data with
  | nil => rw [hs] at hl; simp at hl
  | cons a t =>
    cases t with
    | nil => rw [hs] at hl; simp at hl
    | cons b rest => exact ⟨String.mk a, String.mk b, rest.map String.mk, by simp⟩

/-- C2 (amended): policy evaluation completes without raising provided
the target's type contains an underscore and every policy payload is
benign (its normalized document is skipped as falsy, or is a dict whose
`Statement` is a dict, a string, or a list of statements whose listified
actions are all strings).  Dropping either condition admits an exception:
a target of type `Other` raises `IndexError` (see the counterexample),
and a non-string action entry inside a statement's Action list raises
`AttributeError` on a bucket or AI target. -/
theorem c2_never_raises_amended (policies : List Val) (target : Resource)
    (hty : target.type.data.contains '_' = true)
    (hpols : policies.all policyBenign = true) :
    ∃ r, checkPermission policies target = .ok r := by
  obtain ⟨a, b, rest, hsplit⟩ := pySplitChar_underscore target.type hty
  unfold checkPermission
  rw [hsplit]
  exact checkPermissionPols_ok b target policies hpols

/-- Witness for the amended C2: a mixed policy list (structured dict,
malformed JSON string, heredoc string, non-string payload) against a
bucket target evaluates without raising. -/
theorem c2_never_raises_witness :
    ((demoBucket.type.data.contains '_') = true) ∧
    (([c3pol, vStr "not json", vStr heredocAdminPolicy, vInt 7].all policyBenign) = true) ∧
    (∃ r, checkPermission [c3pol, vStr "not json", vStr heredocAdminPolicy, vInt 7] demoBucket = .ok r) :=
  ⟨rfl, rfl, c2_never_raises_amended _ demoBucket rfl rfl⟩

/-! ### C3: amended -/

theorem evalStmts_append (sv : String) (target : Resource) (xs ys : List Val) :
    evalStmts sv target (xs ++ ys) =
      match evalStmts sv target xs with
      | .error e => .error e
      | .ok (some c) => .ok (some c)
      | .ok none => evalStmts sv target ys := by
  induction xs with
  | nil => rfl
  | cons x rest ih =>
    simp only [List.cons_append, evalStmts]
    cases hx : evalStmt sv target x with
    | error e => rfl
    | ok r =>
      cases r with
      | some c => rfl
      | none => exact ih

theorem checkPermissionPols_flatten (sv : String) (target : Resource) (pols : List Val)
    (stmts : List Val) (hfl : flattenStatements pols = .ok stmts) :
    checkPermissionPols sv target pols = evalStmts sv target stmts := by
  induction pols generalizing stmts with
  | nil =>
    simp only [flattenStatements] at hfl
    cases hfl
    rfl
  | cons pol rest ih =>
    simp only [flattenStatements] at hfl
    cases hps : policyStatements pol with
    | error e => rw [hps] at hfl; cases hfl
    | ok s1 =>
      rw [hps] at hfl
      cases hrest : flattenStatements rest with
      | error e => rw [hrest] at hfl; cases hfl
      | ok more =>
        rw [hrest] at hfl
        cases hfl
        simp only [checkPermissionPols, hps]
        rw [evalStmts_append]
        cases h1 : evalStmts sv target s1 with
        | error e => rfl
        | ok r =>
          cases r with
          | some c => rfl
          | none => exact ih more hrest

theorem evalStmt_admin (sv : String) (target : Resource) (kvs : List (String × Val))
    (heff : pyEqStr (dictGetD kvs "Effect" (vStr "Allow")) "Allow" = true)
    (hact : listContainsStr (toPyList (dictGetD kvs "Action" vNone)) "*" = true)
    (hres : listContainsStr (toPyList (dictGetD kvs "Resource" vNone)) "*" = true) :
    evalStmt sv target (vDict kvs) = .ok (some "Full Admin Access") := by
  simp [evalStmt, heff, hact, hres]

theorem evalStmts_first (sv : String) (target : Resource) (c : String) :
    ∀ (pre : List Val) (s : Val) (post : List Val),
      (∀ x ∈ pre, evalStmt sv target x = .ok none) →
      evalStmt sv target s = .ok (some c) →
      evalStmts sv target (pre ++ s :: post) = .ok (some c) := by
  intro pre
  induction pre with
  | nil =>
    intro s post _ hs
    simp only [List.nil_append, evalStmts, hs]
  | cons x rest ih =>
    intro s post hpre hs
    simp only [List.cons_append, evalStmts]
    simp only [hpre x (by simp)]
    exact ih s post (fun y hy => hpre y (by simp [hy])) hs

/-- C3 (amended): the capability priority order is applied per statement,
first statement wins across the whole collection: whenever the flattened
statement sequence is `pre ++ s :: post`, every statement of `pre` matches
no capability check, and `s` is an Allow statement (possibly by default)
with `"*"` among its actions and `"*"` among its resources, the evaluator
returns Full Admin Access.  The counterexample shows the unamended claim
fails when an earlier statement matches a lower-priority check. -/
theorem c3_first_match_amended (policies : List Val) (target : Resource)
    (a b : String) (rest : List String)
    (hsplit : pySplitChar target.type '_' = a :: b :: rest)
    (pre post : List Val) (kvs : List (String × Val))
    (hfl : flattenStatements policies = .ok (pre ++ vDict kvs :: post))
    (hpre : ∀ x ∈ pre, evalStmt b target x = .ok none)
    (heff : pyEqStr (dictGetD kvs "Effect" (vStr "Allow")) "Allow" = true)
    (hact : listContainsStr (toPyList (dictGetD kvs "Action" vNone)) "*" = true)
    (hres : listContainsStr (toPyList (dictGetD kvs "Resource" vNone)) "*" = true) :
    checkPermission policies target = .ok (some "Full Admin Access") := by
  unfold checkPermission
  rw [hsplit]
  show checkPermissionPols b target policies = Except.ok (some "Full Admin Access")
  rw [checkPermissionPols_flatten b target policies _ hfl]
  exact evalStmts_first b target _ pre _ post hpre (evalStmt_admin b target kvs heff hact hres)

/-- Witness for the amended C3: with a non-matching statement first, the
admin statement is the first match and Full Admin Access is returned. -/
theorem c3_first_match_witness :
    (pySplitChar demoBucket.type '_' = ["aws", "s3", "bucket"]) ∧
    (flattenStatements [c3amendPol] = .ok ([c3stmtEc2] ++ c3stmtAdmin :: [])) ∧
    (∀ x ∈ [c3stmtEc2], evalStmt "s3" demoBucket x = .ok none) ∧
    checkPermission [c3amendPol] demoBucket = .ok (some "Full Admin Access") := by
  refine ⟨rfl, rfl, ?_, ?_⟩
  · intro x hx
    rw [List.mem_singleton] at hx
    subst hx
    rfl
  · exact c3_first_match_amended [c3amendPol] demoBucket "aws" "s3" ["bucket"] rfl
      [c3stmtEc2] [] _ rfl
      (by intro x hx; rw [List.mem_singleton] at hx; subst hx; rfl)
      rfl rfl rfl

/-! ### Attack-graph lemmas -/

theorem AGraph.edges_addNode (g : AGraph) (n : String) : (g.addNode n).edges = g.edges := by
  unfold AGraph.addNode
  by_cases h : g.nodes.contains n = true
  · rw [if_pos h]
  · rw [if_neg h]

theorem AGraph.mem_nodes_addNode (g : AGraph) (n x : String) :
    x ∈ (g.addNode n).nodes ↔ x ∈ g.nodes ∨ x = n := by
  unfold AGraph.addNode
  by_cases h : g.nodes.contains n = true
  · rw [if_pos h]
    simp at h
    constructor
    · exact fun hx => Or.inl hx
    · rintro (hx | rfl)
      · exact hx
      · exact h
  · rw [if_neg h]
    simp

theorem AGraph.nodes_addEdge (g : AGraph) (u v m r : String) (x : String) :
    x ∈ (g.addEdge u v m r).nodes ↔ x ∈ g.nodes ∨ x = u ∨ x = v := by
  unfold AGraph.addEdge
  by_cases hc : ((g.addNode u).addNode v).edges.any (fun e => e.src == u && e.dst == v) = true
  · rw [if_pos hc]
    simp only [AGraph.mem_nodes_addNode]
    tauto
  · rw [if_neg hc]
    simp only [AGraph.mem_nodes_addNode]
    tauto

theorem AGraph.mem_addEdge_iff (g : AGraph) (u v m r : String) (e : AEdge) :
    e ∈ (g.addEdge u v m r).edges ↔
      (e = ⟨u, v, m, r⟩ ∨ (e ∈ g.edges ∧ ¬(e.src = u ∧ e.dst = v))) := by
  unfold AGraph.addEdge
  simp only [AGraph.edges_addNode]
  by_cases hc : g.edges.any (fun e' => e'.src == u && e'.dst == v) = true
  · rw [if_pos hc]
    simp only [List.mem_map]
    constructor
    · rintro ⟨x, hx, hfx⟩
      by_cases hk : (x.src == u && x.dst == v) = true
      · rw [if_pos hk] at hfx
        exact Or.inl hfx.symm
      · rw [if_neg hk] at hfx
        subst hfx
        refine Or.inr ⟨hx, ?_⟩
        intro ⟨h1, h2⟩
        apply hk
        simp [h1, h2]
    · rintro (rfl | ⟨he, hk⟩)
      · rw [List.any_eq_true] at hc
        obtain ⟨x, hx, hkx⟩ := hc
        exact ⟨x, hx, by rw [if_pos hkx]⟩
      · refine ⟨e, he, ?_⟩
        rw [if_neg]
        intro hkk
        simp only [Bool.and_eq_true, beq_iff_eq] at hkk
        exact hk hkk
  · rw [if_neg hc]
    simp only [List.mem_append, List.mem_singleton]
    constructor
    · rintro (he | rfl)
      · refine Or.inr ⟨he, ?_⟩
        intro ⟨h1, h2⟩
        apply hc
        rw [List.any_eq_true]
        exact ⟨e, he, by simp [h1, h2]⟩
      · exact Or.inl rfl
    · rintro (rfl | ⟨he, _⟩)
      · exact Or.inr rfl
      · exact Or.inl he

theorem AGraphWF.addEdge {g : AGraph} (h : AGraphWF g) (u v m r : String) :
    AGraphWF (g.addEdge u v m r) := by
  obtain ⟨hnd, hep⟩ := h
  constructor
  · show ((g.addEdge u v m r).edges.map (fun e => (e.src, e.dst))).Nodup
    unfold AGraph.addEdge
    simp only [AGraph.edges_addNode]
    by_cases hc : g.edges.any (fun e' => e'.src == u && e'.dst == v) = true
    · rw [if_pos hc]
      have : (g.edges.map (fun e => if e.src == u && e.dst == v then AEdge.mk u v m r else e)).map
          (fun e => (e.src, e.dst)) = g.edges.map (fun e => (e.src, e.dst)) := by
        rw [List.map_map]
        apply List.map_congr_left
        intro x _
        by_cases hk : (x.src == u && x.dst == v) = true
        · simp only [Function.comp, hk, if_pos]
          simp only [Bool.and_eq_true, beq_iff_eq] at hk
          simp [hk.1, hk.2]
        · simp [Function.comp, hk]
      rw [this]
      exact hnd
    · rw [if_neg hc]
      rw [List.map_append]
      simp only [List.map_cons, List.map_nil]
      rw [List.nodup_append]
      refine ⟨hnd, List.nodup_singleton _, ?_⟩
      intro p hp
      simp only [List.mem_map] at hp
      obtain ⟨x, hx, hpx⟩ := hp
      simp only [List.mem_singleton]
      intro hpe
      rw [hpe] at hpx
      apply hc
      rw [List.any_eq_true]
      refine ⟨x, hx, ?_⟩
      have h1 : x.src = u := congrArg Prod.fst hpx
      have h2 : x.dst = v := congrArg Prod.snd hpx
      simp [h1, h2]
  · intro e he
    rw [AGraph.mem_addEdge_iff] at he
    rcases he with rfl | ⟨he, _⟩
    · constructor
      · rw [AGraph.nodes_addEdge]
        tauto
      · rw [AGraph.nodes_addEdge]
        tauto
    · obtain ⟨h1, h2⟩ := hep e he
      constructor
      · rw [AGraph.nodes_addEdge]; tauto
      · rw [AGraph.nodes_addEdge]; tauto

theorem AGraph.mem_nodes_of_addEdge (g : AGraph) (u v m r x : String) (h : x ∈ g.nodes) :
    x ∈ (g.addEdge u v m r).nodes :=
  (AGraph.nodes_addEdge g u v m r x).mpr (Or.inl h)

theorem AGraphWF.addEdgeIte {g : AGraph} (h : AGraphWF g) (c : Prop) [Decidable c]
    (u v m r : String) : AGraphWF (if c then g.addEdge u v m r else g) := by
  by_cases hc : c
  · rw [if_pos hc]; exact h.addEdge u v m r
  · rw [if_neg hc]; exact h

theorem AGraph.mem_nodes_addEdgeIte {g : AGraph} {x : String} (h : x ∈ g.nodes) (c : Prop)
    [Decidable c] (u v m r : String) : x ∈ (if c then g.addEdge u v m r else g).nodes := by
  by_cases hc : c
  · rw [if_pos hc]; exact AGraph.mem_nodes_of_addEdge g u v m r x h
  · rw [if_neg hc]; exact h

theorem phase1Step_wf (g : RGraph) (p : String × Option Resource) {ag : AGraph}
    (h : AGraphWF ag) : AGraphWF (phase1Step g ag p) := by
  obtain ⟨pid, pres⟩ := p
  cases pres with
  | none => exact h
  | some res =>
    simp only [phase1Step]
    exact ((h.addEdgeIte _ _ _ _ _).addEdgeIte _ _ _ _ _).addEdgeIte _ _ _ _ _

theorem phase1Step_nodes (g : RGraph) (p : String × Option Resource) {ag : AGraph} {x : String}
    (h : x ∈ ag.nodes) : x ∈ (phase1Step g ag p).nodes := by
  obtain ⟨pid, pres⟩ := p
  cases pres with
  | none => exact h
  | some res =>
    simp only [phase1Step]
    exact AGraph.mem_nodes_addEdgeIte
      (AGraph.mem_nodes_addEdgeIte (AGraph.mem_nodes_addEdgeIte h _ _ _ _ _) _ _ _ _ _) _ _ _ _ _

theorem phase1Go_wf (g : RGraph) : ∀ (l : List (String × Option Resource)) {ag : AGraph},
    AGraphWF ag → AGraphWF (phase1Go g l ag)
  | [], _, h => h
  | p :: rest, _, h => phase1Go_wf g rest (phase1Step_wf g p h)

theorem phase1Go_nodes (g : RGraph) : ∀ (l : List (String × Option Resource)) {ag : AGraph}
    {x : String}, x ∈ ag.nodes → x ∈ (phase1Go g l ag).nodes
  | [], _, _, h => h
  | p :: rest, _, _, h => phase1Go_nodes g rest (phase1Step_nodes g p h)

theorem phase2Step_wf (e : String × String × String) {ag : AGraph} (h : AGraphWF ag) :
    AGraphWF (phase2Step ag e) := by
  simp only [phase2Step]
  exact ((h.addEdgeIte _ _ _ _ _).addEdgeIte _ _ _ _ _).addEdgeIte _ _ _ _ _

theorem phase2Step_nodes (e : String × String × String) {ag : AGraph} {x : String}
    (h : x ∈ ag.nodes) : x ∈ (phase2Step ag e).nodes := by
  simp only [phase2Step]
  exact AGraph.mem_nodes_addEdgeIte
    (AGraph.mem_nodes_addEdgeIte (AGraph.mem_nodes_addEdgeIte h _ _ _ _ _) _ _ _ _ _) _ _ _ _ _

theorem phase2Go_wf : ∀ (l : List (String × String × String)) {ag : AGraph},
    AGraphWF ag → AGraphWF (phase2Go l ag)
  | [], _, h => h
  | e :: rest, _, h => phase2Go_wf rest (phase2Step_wf e h)

theorem phase2Go_nodes : ∀ (l : List (String × String × String)) {ag : AGraph} {x : String},
    x ∈ ag.nodes → x ∈ (phase2Go l ag).nodes
  | [], _, _, h => h
  | e :: rest, _, _, h => phase2Go_nodes rest (phase2Step_nodes e h)

theorem phase4Step_wf (e : String × String × String) {ag : AGraph} (h : AGraphWF ag) :
    AGraphWF (phase4Step ag e) := by
  simp only [phase4Step]
  exact h.addEdgeIte _ _ _ _ _

theorem phase4Step_nodes (e : String × String × String) {ag : AGraph} {x : String}
    (h : x ∈ ag.nodes) : x ∈ (phase4Step ag e).nodes := by
  simp only [phase4Step]
  exact AGraph.mem_nodes_addEdgeIte h _ _ _ _ _

theorem phase4Go_wf : ∀ (l : List (String × String × String)) {ag : AGraph},
    AGraphWF ag → AGraphWF (phase4Go l ag)
  | [], _, h => h
  | e :: rest, _, h => phase4Go_wf rest (phase4Step_wf e h)

theorem phase4Go_nodes : ∀ (l : List (String × String × String)) {ag : AGraph} {x : String},
    x ∈ ag.nodes → x ∈ (phase4Go l ag).nodes
  | [], _, _, h => h
  | e :: rest, _, _, h => phase4Go_nodes rest (phase4Step_nodes e h)

theorem phase3Inner_wf (role_id : String) (policies : List Val) :
    ∀ (l : List (String × Option Resource)) {ag ag' : AGraph},
      phase3Inner role_id policies l ag = .ok ag' →
      AGraphWF ag → AGraphWF ag' ∧ (∀ x, x ∈ ag.nodes → x ∈ ag'.nodes) := by
  intro l
  induction l with
  | nil =>
    intro ag ag' hok h
    cases hok
    exact ⟨h, fun x hx => hx⟩
  | cons p rest ih =>
    intro ag ag' hok h
    obtain ⟨tid, tres⟩ := p
    cases tres with
    | none => exact ih hok h
    | some target =>
      simp only [phase3Inner] at hok
      by_cases hid : tid = role_id
      · rw [if_pos hid] at hok
        exact ih hok h
      · rw [if_neg hid] at hok
        cases hcp : checkPermission policies target with
        | error e => rw [hcp] at hok; cases hok
        | ok cap =>
          rw [hcp] at hok
          cases cap with
          | none => exact ih hok h
          | some c =>
            obtain ⟨hwf, hsub⟩ := ih hok (h.addEdge role_id tid "IAM Permission allow" c)
            exact ⟨hwf, fun x hx => hsub x (AGraph.mem_nodes_of_addEdge _ _ _ _ _ _ hx)⟩

theorem phase3Roles_wf (g : RGraph) :
    ∀ (roles : List String) {ag ag' : AGraph},
      phase3Roles g roles ag = .ok ag' →
      AGraphWF ag → AGraphWF ag' ∧ (∀ x, x ∈ ag.nodes → x ∈ ag'.nodes) := by
  intro roles
  induction roles with
  | nil =>
    intro ag ag' hok h
    cases hok
    exact ⟨h, fun x hx => hx⟩
  | cons role_id rest ih =>
    intro ag ag' hok h
    simp only [phase3Roles] at hok
    cases hinner : phase3Inner role_id (getAttachedPolicies g role_id) g.nodes ag with
    | error e => rw [hinner] at hok; cases hok
    | ok ag2 =>
      rw [hinner] at hok
      obtain ⟨h2, hsub2⟩ := phase3Inner_wf role_id _ g.nodes hinner h
      obtain ⟨h3, hsub3⟩ := ih hok h2
      exact ⟨h3, fun x hx => hsub3 x (hsub2 x hx)⟩

/-- The constructed attack graph is well-formed and contains `Internet`. -/
theorem buildAttackOverlay_wf (g : RGraph) (ag : AGraph)
    (hb : buildAttackOverlay g = .ok ag) :
    AGraphWF ag ∧ "Internet" ∈ ag.nodes := by
  simp only [buildAttackOverlay, phase1, phase2, phase4] at hb
  have h0 : AGraphWF ⟨["Internet"], []⟩ := ⟨List.nodup_nil, by intro e he; cases he⟩
  have h1 := phase1Go_wf g g.nodes h0
  have h2 := phase2Go_wf g.edges h1
  have hn0 : "Internet" ∈ (⟨["Internet"], []⟩ : AGraph).nodes := by simp
  have hn1 := phase1Go_nodes g g.nodes hn0
  have hn2 := phase2Go_nodes g.edges hn1
  cases h3 : phase3Roles g (rolesOf g)
      (phase2Go g.edges (phase1Go g g.nodes ⟨["Internet"], []⟩)) with
  | error e =>
    rw [h3] at hb
    cases hb
  | ok ag3 =>
    rw [h3] at hb
    cases hb
    obtain ⟨h3wf, h3sub⟩ := phase3Roles_wf g (rolesOf g) h3 h2
    exact ⟨phase4Go_wf g.edges h3wf, phase4Go_nodes g.edges (h3sub _ hn2)⟩

/-! ### C4: membership of the Network Reachability edge -/

theorem AGraph.mem_addEdge_ne_dst {g : AGraph} {e : AEdge} {u v m r : String}
    (hne : e.dst ≠ v) : e ∈ (g.addEdge u v m r).edges ↔ e ∈ g.edges := by
  rw [AGraph.mem_addEdge_iff]
  constructor
  · rintro (rfl | ⟨he, _⟩)
    · exact absurd rfl hne
    · exact he
  · intro he
    exact Or.inr ⟨he, fun hk => hne hk.2⟩

theorem AGraph.mem_addEdge_ne_src {g : AGraph} {e : AEdge} {u v m r : String}
    (hne : e.src ≠ u) : e ∈ (g.addEdge u v m r).edges ↔ e ∈ g.edges := by
  rw [AGraph.mem_addEdge_iff]
  constructor
  · rintro (rfl | ⟨he, _⟩)
    · exact absurd rfl hne
    · exact he
  · intro he
    exact Or.inr ⟨he, fun hk => hne hk.1⟩

theorem AGraph.mem_addEdgeIte_ne_dst {g : AGraph} {e : AEdge} {u v m r : String}
    (hne : e.dst ≠ v) (c : Prop) [Decidable c] :
    e ∈ (if c then g.addEdge u v m r else g).edges ↔ e ∈ g.edges := by
  by_cases hc : c
  · rw [if_pos hc]; exact AGraph.mem_addEdge_ne_dst hne
  · rw [if_neg hc]

theorem AGraph.mem_addEdgeIte_ne_src {g : AGraph} {e : AEdge} {u v m r : String}
    (hne : e.src ≠ u) (c : Prop) [Decidable c] :
    e ∈ (if c then g.addEdge u v m r else g).edges ↔ e ∈ g.edges := by
  by_cases hc : c
  · rw [if_pos hc]; exact AGraph.mem_addEdge_ne_src hne
  · rw [if_neg hc]

theorem phase1Step_nr_other (g : RGraph) (n : String) (p : String × Option Resource)
    (hne : p.1 ≠ n) (ag : AGraph) :
    nrEdge n ∈ (phase1Step g ag p).edges ↔ nrEdge n ∈ ag.edges := by
  obtain ⟨pid, pres⟩ := p
  cases pres with
  | none => exact Iff.rfl
  | some res =>
    simp only [phase1Step]
    have hd : (nrEdge n).dst ≠ pid := fun h => hne h.symm
    rw [AGraph.mem_addEdgeIte_ne_dst hd, AGraph.mem_addEdgeIte_ne_dst hd,
      AGraph.mem_addEdgeIte_ne_dst hd]

theorem phase1Go_nr_skip (g : RGraph) (n : String) :
    ∀ (l : List (String × Option Resource)) (ag : AGraph), n ∉ l.map Prod.fst →
      (nrEdge n ∈ (phase1Go g l ag).edges ↔ nrEdge n ∈ ag.edges)
  | [], ag, _ => Iff.rfl
  | p :: rest, ag, h => by
    simp only [List.map_cons, List.mem_cons, not_or] at h
    rw [phase1Go, phase1Go_nr_skip g n rest _ h.2, phase1Step_nr_other g n p (fun he => h.1 he.symm)]

theorem phase1Step_instance (g : RGraph) (n : String) (r : Resource) (ag : AGraph)
    (ht : r.type = "aws_instance") :
    phase1Step g ag (n, some r) =
      if isInstancePubliclyExposed g r = true then
        ag.addEdge "Internet" n "Network Reachability" "Exploit Public Service (SSRF/RCE)"
      else ag := by
  simp only [phase1Step, ht]
  have hvs : Resource.is_vector_store r = false := by
    simp only [Resource.is_vector_store, ht]
    decide
  have hb : (decide ("aws_instance" = "aws_s3_bucket") && isBucketPublic r) = false := by
    simp
  simp [hvs, hb, isVectorStoreExposed]

theorem phase1Go_append (g : RGraph) (l1 l2 : List (String × Option Resource)) (ag : AGraph) :
    phase1Go g (l1 ++ l2) ag = phase1Go g l2 (phase1Go g l1 ag) := by
  induction l1 generalizing ag with
  | nil => rfl
  | cons p rest ih =>
    simp only [List.cons_append, phase1Go]
    exact ih (phase1Step g ag p)

theorem RGraph.hasNode_iff (g : RGraph) (x : String) :
    g.hasNode x = true ↔ x ∈ g.nodes.map Prod.fst := by
  unfold RGraph.hasNode
  rw [List.any_eq_true]
  constructor
  · rintro ⟨p, hp, hpx⟩
    rw [beq_iff_eq] at hpx
    exact hpx ▸ List.mem_map_of_mem Prod.fst hp
  · intro hx
    rw [List.mem_map] at hx
    obtain ⟨p, hp, hpx⟩ := hx
    exact ⟨p, hp, by rw [beq_iff_eq]; exact hpx⟩

theorem phase2Step_nr_pres (n : String) (e : String × String × String)
    (hne : e.1 ≠ "Internet") (ag : AGraph) :
    nrEdge n ∈ (phase2Step ag e).edges ↔ nrEdge n ∈ ag.edges := by
  simp only [phase2Step]
  have hs : (nrEdge n).src ≠ e.1 := fun h => hne (h.symm)
  rw [AGraph.mem_addEdgeIte_ne_src hs, AGraph.mem_addEdgeIte_ne_src hs,
    AGraph.mem_addEdgeIte_ne_src hs]

theorem phase2Go_nr_pres (n : String) :
    ∀ (l : List (String × String × String)) (ag : AGraph), (∀ e ∈ l, e.1 ≠ "Internet") →
      (nrEdge n ∈ (phase2Go l ag).edges ↔ nrEdge n ∈ ag.edges)
  | [], ag, _ => Iff.rfl
  | e :: rest, ag, h => by
    rw [phase2Go, phase2Go_nr_pres n rest _ (fun x hx => h x (by simp [hx])),
      phase2Step_nr_pres n e (h e (by simp))]

theorem phase4Step_nr_pres (n : String) (e : String × String × String)
    (hne : e.1 ≠ "Internet") (ag : AGraph) :
    nrEdge n ∈ (phase4Step ag e).edges ↔ nrEdge n ∈ ag.edges := by
  simp only [phase4Step]
  have hs : (nrEdge n).src ≠ e.1 := fun h => hne (h.symm)
  rw [AGraph.mem_addEdgeIte_ne_src hs]

theorem phase4Go_nr_pres (n : String) :
    ∀ (l : List (String × String × String)) (ag : AGraph), (∀ e ∈ l, e.1 ≠ "Internet") →
      (nrEdge n ∈ (phase4Go l ag).edges ↔ nrEdge n ∈ ag.edges)
  | [], ag, _ => Iff.rfl
  | e :: rest, ag, h => by
    rw [phase4Go, phase4Go_nr_pres n rest _ (fun x hx => h x (by simp [hx])),
      phase4Step_nr_pres n e (h e (by simp))]

theorem phase3Inner_nr_pres (n role_id : String) (policies : List Val)
    (hne : role_id ≠ "Internet") :
    ∀ (l : List (String × Option Resource)) {ag ag' : AGraph},
      phase3Inner role_id policies l ag = .ok ag' →
      (nrEdge n ∈ ag'.edges ↔ nrEdge n ∈ ag.edges) := by
  intro l
  induction l with
  | nil =>
    intro ag ag' hok
    cases hok
    exact Iff.rfl
  | cons p rest ih =>
    intro ag ag' hok
    obtain ⟨tid, tres⟩ := p
    cases tres with
    | none => exact ih hok
    | some target =>
      simp only [phase3Inner] at hok
      by_cases hid : tid = role_id
      · rw [if_pos hid] at hok
        exact ih hok
      · rw [if_neg hid] at hok
        cases hcp : checkPermission policies target with
        | error e => rw [hcp] at hok; cases hok
        | ok cap =>
          rw [hcp] at hok
          cases cap with
          | none => exact ih hok
          | some c =>
            rw [ih hok]
            exact AGraph.mem_addEdge_ne_src (fun h => hne h.symm)

theorem phase3Roles_nr_pres (g : RGraph) (n : String) :
    ∀ (roles : List String), (∀ x ∈ roles, x ≠ "Internet") →
      ∀ {ag ag' : AGraph}, phase3Roles g roles ag = .ok ag' →
        (nrEdge n ∈ ag'.edges ↔ nrEdge n ∈ ag.edges) := by
  intro roles
  induction roles with
  | nil =>
    intro _ ag ag' hok
    cases hok
    exact Iff.rfl
  | cons role_id rest ih =>
    intro h ag ag' hok
    simp only [phase3Roles] at hok
    cases hinner : phase3Inner role_id (getAttachedPolicies g role_id) g.nodes ag with
    | error e => rw [hinner] at hok; cases hok
    | ok ag2 =>
      rw [hinner] at hok
      rw [ih (fun x hx => h x (by simp [hx])) hok]
      exact phase3Inner_nr_pres n role_id _ (h role_id (by simp)) g.nodes hinner

theorem rolesOf_subset (g : RGraph) (x : String) (hx : x ∈ rolesOf g) :
    x ∈ g.nodes.map Prod.fst := by
  unfold rolesOf at hx
  rw [List.mem_filterMap] at hx
  obtain ⟨p, hp, hpx⟩ := hx
  cases hres : p.2 with
  | none => rw [hres] at hpx; cases hpx
  | some r =>
    rw [hres] at hpx
    simp only [] at hpx
    by_cases htr : r.type = "aws_iam_role"
    · rw [if_pos htr] at hpx
      cases hpx
      exact List.mem_map_of_mem Prod.fst hp
    · rw [if_neg htr] at hpx
      cases hpx

theorem hiddenByPrivateSubnet_iff_any (g : RGraph) (n : String) :
    hiddenByPrivateSubnet g n ↔
      (g.successors n).any (fun succ =>
        g.edgeRel n succ == some "located_in" &&
        (match g.nodeResource succ with
         | some subnet =>
           pyLower (pyStr (dictGetD subnet.attributes "map_public_ip_on_launch" (vBool true))) == "false"
         | none => false)) = true := by
  rw [List.any_eq_true]
  unfold hiddenByPrivateSubnet
  apply exists_congr
  intro v
  constructor
  · rintro ⟨hv, hrel, subnet, hres, hlow⟩
    refine ⟨hv, ?_⟩
    rw [Bool.and_eq_true, beq_iff_eq]
    exact ⟨hrel, by rw [hres]; simp only []; rw [beq_iff_eq]; exact hlow⟩
  · rintro ⟨hv, hb⟩
    rw [Bool.and_eq_true, beq_iff_eq] at hb
    obtain ⟨hrel, hm⟩ := hb
    cases hres : g.nodeResource v with
    | none => rw [hres] at hm; cases hm
    | some subnet =>
      rw [hres] at hm
      simp only [] at hm
      rw [beq_iff_eq] at hm
      exact ⟨hv, hrel, subnet, rfl, hm⟩

theorem openSgExposure_iff_any (g : RGraph) (n : String) :
    openSgExposure g n ↔
      (g.successors n).any (fun succ =>
        g.edgeRel n succ == some "protected_by" &&
        (match g.nodeResource succ with
         | some sg => isSgPublic sg
         | none => false)) = true := by
  rw [List.any_eq_true]
  unfold openSgExposure
  apply exists_congr
  intro v
  constructor
  · rintro ⟨hv, hrel, sg, hres, hpub⟩
    refine ⟨hv, ?_⟩
    rw [Bool.and_eq_true, beq_iff_eq]
    exact ⟨hrel, by rw [hres]; exact hpub⟩
  · rintro ⟨hv, hb⟩
    rw [Bool.and_eq_true, beq_iff_eq] at hb
    obtain ⟨hrel, hm⟩ := hb
    cases hres : g.nodeResource v with
    | none => rw [hres] at hm; cases hm
    | some sg =>
      rw [hres] at hm
      exact ⟨hv, hrel, sg, rfl, hm⟩

theorem isInstancePubliclyExposed_iff (g : RGraph) (r : Resource)
    (hid : g.hasNode r.id = true) :
    isInstancePubliclyExposed g r = true ↔
      ¬ hiddenByPrivateSubnet g r.id ∧ openSgExposure g r.id := by
  unfold isInstancePubliclyExposed
  rw [hid]
  simp only [Bool.not_true, Bool.false_eq_true, if_false]
  rw [hiddenByPrivateSubnet_iff_any, openSgExposure_iff_any]
  by_cases hsub : (g.successors r.id).any (fun succ =>
      g.edgeRel r.id succ == some "located_in" &&
      (match g.nodeResource succ with
       | some subnet =>
         pyLower (pyStr (dictGetD subnet.attributes "map_public_ip_on_launch" (vBool true))) == "false"
       | none => false)) = true
  · rw [if_pos hsub]
    simp [hsub]
  · rw [if_neg hsub]
    simp [hsub]

/-- C4: for every `aws_instance` resource in the resource graph (with the
networkx invariants: unique node keys, edge endpoints present, and no
`Internet` resource node), the constructor adds the attack edge
`Internet → instance` with method "Network Reachability" iff (i) no
outgoing `located_in` edge reaches a subnet whose `map_public_ip_on_launch`
stringifies case-insensitively to "false", and (ii) at least one
`protected_by` edge reaches a security group whose (possibly nested)
ingress contains the CIDR `0.0.0.0/0`. -/
theorem c4_network_reachability_iff (g : RGraph) (ag : AGraph)
    (hb : buildAttackOverlay g = .ok ag)
    (hkeys : (g.nodes.map Prod.fst).Nodup)
    (hsrc : ∀ e ∈ g.edges, g.hasNode e.1 = true)
    (hInternet : g.hasNode "Internet" = false)
    (n : String) (r : Resource)
    (hn : (n, some r) ∈ g.nodes) (ht : r.type = "aws_instance") (hrid : r.id = n) :
    nrEdge n ∈ ag.edges ↔ (¬ hiddenByPrivateSubnet g n ∧ openSgExposure g n) := by
  simp only [buildAttackOverlay, phase1, phase2, phase4] at hb
  cases h3 : phase3Roles g (rolesOf g)
      (phase2Go g.edges (phase1Go g g.nodes ⟨["Internet"], []⟩)) with
  | error e => rw [h3] at hb; cases hb
  | ok ag3 =>
    rw [h3] at hb
    cases hb
    have hne_src : ∀ e ∈ g.edges, e.1 ≠ "Internet" := by
      intro e he heq
      have h1 := hsrc e he
      rw [heq, hInternet] at h1
      cases h1
    have hroles : ∀ x ∈ rolesOf g, x ≠ "Internet" := by
      intro x hx heq
      have h1 := rolesOf_subset g x hx
      rw [heq, ← RGraph.hasNode_iff, hInternet] at h1
      cases h1
    rw [phase4Go_nr_pres n g.edges ag3 hne_src,
      phase3Roles_nr_pres g n (rolesOf g) hroles h3,
      phase2Go_nr_pres n g.edges _ hne_src]
    obtain ⟨l1, l2, hsplit⟩ := List.append_of_mem hn
    have hkeys' : ((l1 ++ (n, some r) :: l2).map Prod.fst).Nodup := by
      rw [← hsplit]; exact hkeys
    rw [List.map_append, List.map_cons, List.nodup_append] at hkeys'
    obtain ⟨_, hnd2, hdisj⟩ := hkeys'
    have hn1 : n ∉ l1.map Prod.fst := fun hmem => hdisj hmem (List.mem_cons_self _ _)
    have hn2 : n ∉ l2.map Prod.fst := (List.nodup_cons.mp hnd2).1
    rw [hsplit, phase1Go_append, phase1Go]
    rw [phase1Go_nr_skip g n l2 _ hn2]
    rw [phase1Step_instance g n r _ ht]
    have hid : g.hasNode r.id = true := by
      rw [hrid, RGraph.hasNode_iff]
      exact List.mem_map_of_mem Prod.fst hn
    have hexp_iff := isInstancePubliclyExposed_iff g r hid
    rw [hrid] at hexp_iff
    by_cases hexp : isInstancePubliclyExposed g r = true
    · rw [if_pos hexp]
      rw [AGraph.mem_addEdge_iff]
      constructor
      · intro _
        exact hexp_iff.mp hexp
      · intro _
        exact Or.inl rfl
    · rw [if_neg hexp]
      rw [phase1Go_nr_skip g n l1 _ hn1]
      constructor
      · intro hmem
        cases hmem
      · intro hrhs
        exact absurd (hexp_iff.mpr hrhs) hexp

/-- Witness for C4: every hypothesis holds for the concrete graph and the
characterization applies to its instance node. -/
theorem c4_network_reachability_witness :
    (buildAttackOverlay c4g = .ok ⟨["Internet", "aws_instance.web"], [nrEdge "aws_instance.web"]⟩) ∧
    ((c4g.nodes.map Prod.fst).Nodup ∧ c4g.hasNode "Internet" = false ∧
      c4res.type = "aws_instance" ∧ c4res.id = "aws_instance.web") ∧
    (nrEdge "aws_instance.web" ∈
        (⟨["Internet", "aws_instance.web"], [nrEdge "aws_instance.web"]⟩ : AGraph).edges ↔
      (¬ hiddenByPrivateSubnet c4g "aws_instance.web" ∧ openSgExposure c4g "aws_instance.web")) :=
  ⟨rfl, ⟨by decide, rfl, rfl, rfl⟩,
    c4_network_reachability_iff c4g _ rfl (by decide)
      (by
        intro e he
        simp only [c4g] at he
        rw [List.mem_singleton] at he
        subst he
        rfl)
      rfl "aws_instance.web" c4res (List.mem_cons_self _ _) rfl rfl⟩

/-! ### Characterization of the bounded simple-path enumeration -/

theorem goodPathB_head {succ : String → List String} {t : String} :
    ∀ {visited : List String} {u : String} {p : List String},
      goodPathB succ t visited u p = true → ∃ q, p = u :: q := by
  intro visited u p h
  match p with
  | [] => cases h
  | [x] =>
    simp only [goodPathB, Bool.and_eq_true, beq_iff_eq] at h
    exact ⟨[], by rw [h.1]⟩
  | x :: y :: rest =>
    simp only [goodPathB, Bool.and_eq_true, beq_iff_eq] at h
    exact ⟨y :: rest, by rw [h.1.1.1.1]⟩

theorem goodPathB_getLast {succ : String → List String} {t : String} :
    ∀ {p : List String} {visited : List String} {u : String},
      goodPathB succ t visited u p = true → p.getLast? = some t := by
  intro p
  induction p with
  | nil => intro _ _ h; cases h
  | cons x q ih =>
    intro visited u h
    match q with
    | [] =>
      simp only [goodPathB, Bool.and_eq_true, beq_iff_eq] at h
      simp [h.1, h.2]
    | y :: rest =>
      simp only [goodPathB, Bool.and_eq_true] at h
      have := ih h.2
      rw [List.getLast?_cons_cons]
      exact this

theorem goodPathB_single_iff {succ : String → List String} {t : String}
    {visited : List String} {u x : String} :
    goodPathB succ t visited u [x] = true ↔ (x = u ∧ u = t) := by
  simp [goodPathB]

theorem goodPathB_cons_iff {succ : String → List String} {t : String}
    {visited : List String} {u x y : String} {rest : List String} :
    goodPathB succ t visited u (x :: y :: rest) = true ↔
      (x = u ∧ ¬(u = t) ∧ y ∈ succ u ∧ y ∉ (u :: visited) ∧
        goodPathB succ t (u :: visited) y (y :: rest) = true) := by
  simp [goodPathB, and_assoc]

theorem mem_dfsPaths {succ : String → List String} {t : String} :
    ∀ (fuel : Nat) (visited : List String) (u : String) (p : List String),
      p ∈ dfsPaths succ t fuel visited u ↔
        (goodPathB succ t visited u p = true ∧ p.length ≤ fuel + 1) := by
  intro fuel
  induction fuel with
  | zero =>
    intro visited u p
    simp only [dfsPaths]
    by_cases ht : u = t
    · rw [if_pos ht]
      simp only [List.mem_singleton]
      constructor
      · rintro rfl
        exact ⟨goodPathB_single_iff.mpr ⟨rfl, ht⟩, by simp⟩
      · rintro ⟨hg, hl⟩
        match p with
        | [] => cases hg
        | [x] => rw [(goodPathB_single_iff.mp hg).1]
        | x :: y :: rest => simp at hl
    · rw [if_neg ht]
      simp only [List.not_mem_nil, false_iff, not_and]
      intro hg
      match p with
      | [] => cases hg
      | [x] => exact absurd (goodPathB_single_iff.mp hg).2 ht
      | x :: y :: rest => simp
  | succ f ih =>
    intro visited u p
    simp only [dfsPaths]
    by_cases ht : u = t
    · rw [if_pos ht]
      simp only [List.mem_singleton]
      constructor
      · rintro rfl
        exact ⟨goodPathB_single_iff.mpr ⟨rfl, ht⟩, by simp⟩
      · rintro ⟨hg, _⟩
        match p with
        | [] => cases hg
        | [x] => rw [(goodPathB_single_iff.mp hg).1]
        | x :: y :: rest => exact absurd ht (goodPathB_cons_iff.mp hg).2.1
    · rw [if_neg ht]
      rw [List.mem_flatMap]
      constructor
      · rintro ⟨v, hv, hp⟩
        rw [List.mem_map] at hp
        obtain ⟨q, hq, rfl⟩ := hp
        rw [List.mem_filter] at hv
        obtain ⟨hvsucc, hvvis⟩ := hv
        rw [ih (u :: visited) v q] at hq
        obtain ⟨hgq, hlq⟩ := hq
        obtain ⟨q', rfl⟩ := goodPathB_head hgq
        refine ⟨?_, by simpa using Nat.succ_le_succ hlq⟩
        refine goodPathB_cons_iff.mpr ⟨rfl, ht, hvsucc, ?_, hgq⟩
        simpa using hvvis
      · rintro ⟨hg, hl⟩
        match p with
        | [] => cases hg
        | [x] => exact absurd (goodPathB_single_iff.mp hg).2 ht
        | x :: y :: rest =>
          obtain ⟨hxu, _, hysucc, hyvis, hgq⟩ := goodPathB_cons_iff.mp hg
          refine ⟨y, ?_, ?_⟩
          · rw [List.mem_filter]
            refine ⟨hysucc, by simpa using hyvis⟩
          · rw [List.mem_map]
            refine ⟨y :: rest, ?_, by rw [hxu]⟩
            rw [ih (u :: visited) y (y :: rest)]
            refine ⟨hgq, ?_⟩
            simp only [List.length_cons] at hl ⊢
            omega

theorem goodPathB_edges {succ : String → List String} {t : String} :
    ∀ {p : List String} {visited : List String} {u : String},
      goodPathB succ t visited u p = true → ∀ e ∈ pathEdges p, e.2 ∈ succ e.1 := by
  intro p
  induction p with
  | nil => intro _ _ h; cases h
  | cons x q ih =>
    intro visited u h e he
    match q, he with
    | y :: rest, he =>
      obtain ⟨hxu, _, hysucc, _, hgq⟩ := goodPathB_cons_iff.mp h
      simp only [pathEdges, List.mem_cons] at he
      rcases he with rfl | he
      · rw [hxu]; exact hysucc
      · exact ih hgq e he

theorem goodPathB_mono {succ succ' : String → List String}
    (hsub : ∀ x, ∀ y ∈ succ' x, y ∈ succ x) {t : String} :
    ∀ {p : List String} {visited : List String} {u : String},
      goodPathB succ' t visited u p = true → goodPathB succ t visited u p = true := by
  intro p
  induction p with
  | nil => intro _ _ h; cases h
  | cons x q ih =>
    intro visited u h
    match q with
    | [] => exact goodPathB_single_iff.mpr (goodPathB_single_iff.mp h)
    | y :: rest =>
      obtain ⟨hxu, hut, hysucc, hyvis, hgq⟩ := goodPathB_cons_iff.mp h
      exact goodPathB_cons_iff.mpr ⟨hxu, hut, hsub u y hysucc, hyvis, ih hgq⟩

theorem goodPathB_nodup {succ : String → List String} {t : String} :
    ∀ {p : List String} {visited : List String} {u : String},
      goodPathB succ t visited u p = true → u ∉ visited →
      p.Nodup ∧ ∀ x ∈ p, x ∉ visited := by
  intro p
  induction p with
  | nil => intro _ _ h; cases h
  | cons x q ih =>
    intro visited u h hu
    match q with
    | [] =>
      obtain ⟨rfl, _⟩ := goodPathB_single_iff.mp h
      exact ⟨List.nodup_singleton _, by simpa using hu⟩
    | y :: rest =>
      obtain ⟨rfl, _, _, hyvis, hgq⟩ := goodPathB_cons_iff.mp h
      obtain ⟨hnd, hdisj⟩ := ih hgq hyvis
      constructor
      · rw [List.nodup_cons]
        refine ⟨?_, hnd⟩
        intro hxq
        exact hdisj x hxq (List.mem_cons_self _ _)
      · intro z hz
        rw [List.mem_cons] at hz
        rcases hz with rfl | hz
        · exact hu
        · intro hzv
          exact hdisj z hz (List.mem_cons_of_mem _ hzv)

theorem goodPathB_mem_nodes {succ : String → List String} {t : String} {N : List String}
    (hss : ∀ x y, y ∈ succ x → y ∈ N) :
    ∀ {p : List String} {visited : List String} {u : String},
      goodPathB succ t visited u p = true → u ∈ N → ∀ x ∈ p, x ∈ N := by
  intro p
  induction p with
  | nil => intro _ _ h; cases h
  | cons x q ih =>
    intro visited u h hu z hz
    match q with
    | [] =>
      obtain ⟨rfl, _⟩ := goodPathB_single_iff.mp h
      rw [List.mem_singleton] at hz
      exact hz ▸ hu
    | y :: rest =>
      obtain ⟨rfl, _, hysucc, _, hgq⟩ := goodPathB_cons_iff.mp h
      rw [List.mem_cons] at hz
      rcases hz with rfl | hz
      · exact hu
      · exact ih hgq (hss x y hysucc) z hz

theorem mem_successors_iff (ag : AGraph) (x y : String) :
    y ∈ ag.successors x ↔ ∃ m r, AEdge.mk x y m r ∈ ag.edges := by
  unfold AGraph.successors
  rw [List.mem_filterMap]
  constructor
  · rintro ⟨e, he, hey⟩
    by_cases hx : e.src == x
    · rw [if_pos hx] at hey
      cases hey
      rw [beq_iff_eq] at hx
      exact ⟨e.method, e.risk, by rw [← hx]; exact he⟩
    · rw [if_neg hx] at hey
      cases hey
  · rintro ⟨m, r, he⟩
    exact ⟨⟨x, y, m, r⟩, he, by simp⟩

theorem successors_subset_nodes {ag : AGraph} (hwf : AGraphWF ag) (x y : String)
    (hy : y ∈ ag.successors x) : y ∈ ag.nodes := by
  rw [mem_successors_iff] at hy
  obtain ⟨m, r, he⟩ := hy
  exact (hwf.2 _ he).2

theorem successorsList_nodup (x : String) :
    ∀ (edges : List AEdge), (edges.map (fun e => (e.src, e.dst))).Nodup →
      (edges.filterMap (fun e => if e.src == x then some e.dst else none)).Nodup := by
  intro edges
  induction edges with
  | nil => intro _; exact List.nodup_nil
  | cons e rest ih =>
    intro h
    rw [List.map_cons, List.nodup_cons] at h
    obtain ⟨hkey, hrest⟩ := h
    rw [List.filterMap_cons]
    by_cases hx : e.src == x
    · rw [if_pos hx]
      rw [List.nodup_cons]
      refine ⟨?_, ih hrest⟩
      intro hmem
      rw [List.mem_filterMap] at hmem
      obtain ⟨e', he', hey⟩ := hmem
      by_cases hx' : e'.src == x
      · rw [if_pos hx'] at hey
        rw [Option.some.injEq] at hey
        apply hkey
        rw [List.mem_map]
        refine ⟨e', he', ?_⟩
        rw [beq_iff_eq] at hx hx'
        show (e'.src, e'.dst) = (e.src, e.dst)
        rw [hx, hx', hey]
      · rw [if_neg hx'] at hey
        cases hey
    · rw [if_neg hx]
      exact ih hrest

theorem successors_nodup {ag : AGraph} (hwf : AGraphWF ag) (x : String) :
    (ag.successors x).Nodup :=
  successorsList_nodup x ag.edges hwf.1

theorem dfsPaths_head {succ : String → List String} {t : String} {fuel : Nat}
    {visited : List String} {u : String} {p : List String}
    (h : p ∈ dfsPaths succ t fuel visited u) : ∃ q, p = u :: q :=
  goodPathB_head ((mem_dfsPaths fuel visited u p).mp h).1

theorem dfsPaths_nodup {succ : String → List String} {t : String}
    (hs : ∀ x, (succ x).Nodup) :
    ∀ (fuel : Nat) (visited : List String) (u : String),
      (dfsPaths succ t fuel visited u).Nodup := by
  intro fuel
  induction fuel with
  | zero =>
    intro visited u
    simp only [dfsPaths]
    by_cases ht : u = t
    · rw [if_pos ht]; exact List.nodup_singleton _
    · rw [if_neg ht]; exact List.nodup_nil
  | succ f ih =>
    intro visited u
    simp only [dfsPaths]
    by_cases ht : u = t
    · rw [if_pos ht]; exact List.nodup_singleton _
    · rw [if_neg ht]
      rw [List.nodup_flatMap]
      constructor
      · intro v _
        refine (ih (u :: visited) v).map ?_
        intro a b hab
        exact (List.cons.injEq u a u b).mp hab |>.2
      · have hvs : ((succ u).filter (fun v => !((u :: visited).contains v))).Nodup :=
          (hs u).filter _
        refine hvs.imp ?_
        intro v1 v2 hne p hp1 hp2
        rw [List.mem_map] at hp1 hp2
        obtain ⟨q1, hq1, rfl⟩ := hp1
        obtain ⟨q2, hq2, heq⟩ := hp2
        obtain ⟨q1', rfl⟩ := dfsPaths_head hq1
        obtain ⟨q2', rfl⟩ := dfsPaths_head hq2
        have := (List.cons.injEq u (v1 :: q1') u (v2 :: q2')).mp heq.symm |>.2
        exact hne ((List.cons.injEq v1 q1' v2 q2').mp this).1

theorem nodup_length_le {α : Type} [DecidableEq α] {l₁ l₂ : List α}
    (hnd : l₁.Nodup) (hsub : l₁ ⊆ l₂) : l₁.length ≤ l₂.length := by
  calc l₁.length = l₁.toFinset.card := (List.toFinset_card_of_nodup hnd).symm
    _ ≤ l₂.toFinset.card := Finset.card_le_card (fun a ha => by
        rw [List.mem_toFinset] at ha ⊢
        exact hsub ha)
    _ ≤ l₂.length := l₂.toFinset_card_le

theorem nodup_length_lt {α : Type} [DecidableEq α] {l₁ l₂ : List α}
    (hnd : l₁.Nodup) (hsub : l₁ ⊆ l₂) (x : α) (hx : x ∈ l₂) (hnx : x ∉ l₁) :
    l₁.length < l₂.length := by
  calc l₁.length = l₁.toFinset.card := (List.toFinset_card_of_nodup hnd).symm
    _ < l₂.toFinset.card := by
        apply Finset.card_lt_card
        apply (Finset.ssubset_iff_of_subset (fun a ha => by
          rw [List.mem_toFinset] at ha ⊢
          exact hsub ha)).mpr
        refine ⟨x, ?_, ?_⟩
        · rw [List.mem_toFinset]; exact hx
        · rw [List.mem_toFinset]; exact hnx
    _ ≤ l₂.length := l₂.toFinset_card_le

/-! ### Effect of removing an edge on the bounded enumeration -/

theorem removeEdge_successors_subset (g : AGraph) (a b x : String) :
    (g.removeEdge a b).successors x ⊆ g.successors x := by
  unfold AGraph.successors AGraph.removeEdge
  exact (((List.filter_sublist g.edges).filterMap _)).subset

theorem removeEdge_not_successor (g : AGraph) (a b : String) :
    b ∉ (g.removeEdge a b).successors a := by
  intro hmem
  rw [mem_successors_iff] at hmem
  obtain ⟨m, r, he⟩ := hmem
  unfold AGraph.removeEdge at he
  rw [List.mem_filter] at he
  have h2 := he.2
  simp at h2

theorem removeEdge_wf {g : AGraph} (hwf : AGraphWF g) (a b : String) :
    AGraphWF (g.removeEdge a b) := by
  constructor
  · exact hwf.1.sublist ((List.filter_sublist g.edges).map _)
  · intro e he
    unfold AGraph.removeEdge at he
    rw [List.mem_filter] at he
    exact hwf.2 e he.1

theorem filter_length_lt {α : Type} (p : α → Bool) :
    ∀ (l : List α) (x : α), x ∈ l → p x = false → (l.filter p).length < l.length := by
  intro l
  induction l with
  | nil => intro x hx; cases hx
  | cons y rest ih =>
    intro x hx hpx
    rw [List.mem_cons] at hx
    rw [List.filter_cons]
    rcases hx with rfl | hx
    · rw [hpx]
      simp only [Bool.false_eq_true, if_false]
      have hle : (rest.filter p).length ≤ rest.length := (rest.filter_sublist).length_le
      simp only [List.length_cons]
      omega
    · by_cases hpy : p y = true
      · rw [hpy]
        simp only [List.length_cons]
        exact Nat.succ_lt_succ (ih x hx hpx)
      · rw [Bool.not_eq_true] at hpy
        rw [hpy]
        simp only [Bool.false_eq_true, if_false]
        have := ih x hx hpx
        simp only [List.length_cons]
        omega

theorem removeEdge_length_lt (g : AGraph) (a b m r : String)
    (hmem : AEdge.mk a b m r ∈ g.edges) :
    (g.removeEdge a b).edges.length < g.edges.length := by
  unfold AGraph.removeEdge
  exact filter_length_lt _ g.edges _ hmem (by simp)

theorem mem_allSimplePaths_iff (g : AGraph) (s t : String) (c : Nat) (p : List String) :
    p ∈ allSimplePaths g s t c ↔
      (g.hasNode s = true ∧ g.hasNode t = true ∧
        goodPathB g.successors t [] s p = true ∧ p.length ≤ c + 1) := by
  unfold allSimplePaths
  by_cases hs : g.hasNode s = true
  · by_cases htn : g.hasNode t = true
    · rw [hs, htn]
      simp only [Bool.and_self, if_true]
      rw [mem_dfsPaths]
      tauto
    · rw [Bool.not_eq_true] at htn
      rw [htn]
      simp [hs, htn]
  · rw [Bool.not_eq_true] at hs
    rw [hs]
    simp [hs]

theorem allSimplePaths_removeEdge_subset (g : AGraph) (a b s t : String) (c : Nat) :
    ∀ p ∈ allSimplePaths (g.removeEdge a b) s t c, p ∈ allSimplePaths g s t c := by
  intro p hp
  rw [mem_allSimplePaths_iff] at hp ⊢
  obtain ⟨hs, htn, hg, hl⟩ := hp
  exact ⟨hs, htn, goodPathB_mono (fun x y hy => removeEdge_successors_subset g a b x hy) hg, hl⟩

theorem allSimplePaths_removeEdge_not_mem (g : AGraph) (a b s t : String) (c : Nat)
    (p : List String) (hp : (a, b) ∈ pathEdges p) :
    p ∉ allSimplePaths (g.removeEdge a b) s t c := by
  intro hmem
  rw [mem_allSimplePaths_iff] at hmem
  have := goodPathB_edges hmem.2.2.1 (a, b) hp
  exact removeEdge_not_successor g a b this

theorem allSimplePaths_nodup {g : AGraph} (hwf : AGraphWF g) (s t : String) (c : Nat) :
    (allSimplePaths g s t c).Nodup := by
  unfold allSimplePaths
  by_cases h : (g.hasNode s && g.hasNode t) = true
  · rw [if_pos h]
    exact dfsPaths_nodup (successors_nodup hwf) c [] s
  · rw [if_neg h]
    exact List.nodup_nil

theorem flatMap_length_le {α β : Type} (ts : List α) (f f' : α → List β)
    (hle : ∀ t ∈ ts, (f' t).length ≤ (f t).length) :
    (ts.flatMap f').length ≤ (ts.flatMap f).length := by
  induction ts with
  | nil => exact Nat.le_refl _
  | cons y rest ih =>
    simp only [List.flatMap_cons, List.length_append]
    have h1 := hle y (List.mem_cons_self _ _)
    have h2 := ih (fun t ht => hle t (List.mem_cons_of_mem _ ht))
    omega

theorem flatMap_length_lt {α β : Type} (ts : List α) (f f' : α → List β)
    (hle : ∀ t ∈ ts, (f' t).length ≤ (f t).length)
    (t0 : α) (ht0 : t0 ∈ ts) (hlt : (f' t0).length < (f t0).length) :
    (ts.flatMap f').length < (ts.flatMap f).length := by
  induction ts with
  | nil => cases ht0
  | cons y rest ih =>
    simp only [List.flatMap_cons, List.length_append]
    rw [List.mem_cons] at ht0
    have hty := hle y (List.mem_cons_self _ _)
    have hrest_le := flatMap_length_le rest f f' (fun t ht => hle t (List.mem_cons_of_mem _ ht))
    rcases ht0 with rfl | ht0
    · omega
    · have := ih (fun t ht => hle t (List.mem_cons_of_mem _ ht)) ht0
      omega

/-! ### The greedy selection -/

theorem maxByVal_eq_none : ∀ (l : List ((String × String) × Nat)),
    maxByVal l = none → l = [] := by
  intro l h
  cases l with
  | nil => rfl
  | cons en rest =>
    obtain ⟨e, n⟩ := en
    simp only [maxByVal] at h
    cases hrest : maxByVal rest with
    | none => rw [hrest] at h; simp only [] at h; cases h
    | some en' =>
      rw [hrest] at h
      obtain ⟨e', n'⟩ := en'
      simp only [] at h
      by_cases hgt : n' > n
      · rw [if_pos hgt] at h; cases h
      · rw [if_neg hgt] at h; cases h

theorem maxByVal_mem : ∀ (l : List ((String × String) × Nat)) (x : (String × String) × Nat),
    maxByVal l = some x → x ∈ l := by
  intro l
  induction l with
  | nil => intro x h; cases h
  | cons en rest ih =>
    intro x h
    obtain ⟨e, n⟩ := en
    simp only [maxByVal] at h
    cases hrest : maxByVal rest with
    | none =>
      rw [hrest] at h
      simp only [] at h
      cases h
      exact List.mem_cons_self _ _
    | some en' =>
      rw [hrest] at h
      obtain ⟨e', n'⟩ := en'
      simp only [] at h
      by_cases hgt : n' > n
      · rw [if_pos hgt] at h
        cases h
        exact List.mem_cons_of_mem _ (ih _ hrest)
      · rw [if_neg hgt] at h
        cases h
        exact List.mem_cons_self _ _

theorem maxByVal_is_max : ∀ (l : List ((String × String) × Nat)) (x : (String × String) × Nat),
    maxByVal l = some x → ∀ y ∈ l, y.2 ≤ x.2 := by
  intro l
  induction l with
  | nil => intro x h; cases h
  | cons en rest ih =>
    intro x h y hy
    obtain ⟨e, n⟩ := en
    simp only [maxByVal] at h
    rw [List.mem_cons] at hy
    cases hrest : maxByVal rest with
    | none =>
      rw [hrest] at h
      simp only [] at h
      cases h
      rcases hy with rfl | hy
      · exact Nat.le_refl _
      · rw [maxByVal_eq_none rest hrest] at hy
        cases hy
    | some en' =>
      rw [hrest] at h
      obtain ⟨e', n'⟩ := en'
      simp only [] at h
      by_cases hgt : n' > n
      · rw [if_pos hgt] at h
        cases h
        rcases hy with rfl | hy
        · exact Nat.le_of_lt hgt
        · exact ih _ hrest y hy
      · rw [if_neg hgt] at h
        cases h
        rcases hy with rfl | hy
        · exact Nat.le_refl _
        · exact Nat.le_trans (ih _ hrest y hy) (Nat.le_of_not_lt hgt)

theorem bumpCount_key_origin : ∀ (acc : List ((String × String) × Nat)) (e : String × String)
    (x : (String × String) × Nat), x ∈ bumpCount acc e → x.1 = e ∨ ∃ n, (x.1, n) ∈ acc := by
  intro acc
  induction acc with
  | nil =>
    intro e x hx
    simp only [bumpCount] at hx
    rw [List.mem_singleton] at hx
    subst hx
    exact Or.inl rfl
  | cons en rest ih =>
    intro e x hx
    obtain ⟨e', n⟩ := en
    simp only [bumpCount] at hx
    by_cases he : e' = e
    · rw [if_pos he] at hx
      rw [List.mem_cons] at hx
      rcases hx with rfl | hx
      · exact Or.inl he
      · exact Or.inr ⟨x.2, List.mem_cons_of_mem _ (by cases x; exact hx)⟩
    · rw [if_neg he] at hx
      rw [List.mem_cons] at hx
      rcases hx with rfl | hx
      · exact Or.inr ⟨n, List.mem_cons_self _ _⟩
      · rcases ih e x hx with h | ⟨n', hn'⟩
        · exact Or.inl h
        · exact Or.inr ⟨n', List.mem_cons_of_mem _ hn'⟩

theorem bumpAll_key_origin : ∀ (eds : List (String × String))
    (acc : List ((String × String) × Nat)) (x : (String × String) × Nat),
    x ∈ bumpAll acc eds → x.1 ∈ eds ∨ ∃ n, (x.1, n) ∈ acc := by
  intro eds
  induction eds with
  | nil =>
    intro acc x hx
    exact Or.inr ⟨x.2, by cases x; exact hx⟩
  | cons e rest ih =>
    intro acc x hx
    rcases ih (bumpCount acc e) x hx with h | ⟨n, hn⟩
    · exact Or.inl (List.mem_cons_of_mem _ h)
    · rcases bumpCount_key_origin acc e (x.1, n) hn with h | ⟨n', hn'⟩
      · exact Or.inl (by rw [List.mem_cons]; exact Or.inl h)
      · exact Or.inr ⟨n', hn'⟩

theorem edgeCountsGo_key_origin : ∀ (paths : List (List String))
    (acc : List ((String × String) × Nat)) (x : (String × String) × Nat),
    x ∈ edgeCountsGo acc paths →
      (∃ p ∈ paths, x.1 ∈ pathEdges p) ∨ ∃ n, (x.1, n) ∈ acc := by
  intro paths
  induction paths with
  | nil =>
    intro acc x hx
    exact Or.inr ⟨x.2, by cases x; exact hx⟩
  | cons p rest ih =>
    intro acc x hx
    rcases ih (bumpAll acc (pathEdges p)) x hx with ⟨q, hq, hxq⟩ | ⟨n, hn⟩
    · exact Or.inl ⟨q, List.mem_cons_of_mem _ hq, hxq⟩
    · rcases bumpAll_key_origin (pathEdges p) acc (x.1, n) hn with h | ⟨n', hn'⟩
      · exact Or.inl ⟨p, List.mem_cons_self _ _, h⟩
      · exact Or.inr ⟨n', hn'⟩

theorem edgeCounts_key_origin (paths : List (List String)) (x : (String × String) × Nat)
    (hx : x ∈ edgeCounts paths) : ∃ p ∈ paths, x.1 ∈ pathEdges p := by
  rcases edgeCountsGo_key_origin paths [] x hx with h | ⟨n, hn⟩
  · exact h
  · cases hn

theorem bumpCount_ne_nil (acc : List ((String × String) × Nat)) (e : String × String) :
    bumpCount acc e ≠ [] := by
  cases acc with
  | nil => simp [bumpCount]
  | cons en rest =>
    obtain ⟨e', n⟩ := en
    simp only [bumpCount]
    by_cases he : e' = e
    · rw [if_pos he]; simp
    · rw [if_neg he]; simp

theorem bumpAll_ne_nil : ∀ (eds : List (String × String))
    (acc : List ((String × String) × Nat)), (acc ≠ [] ∨ eds ≠ []) → bumpAll acc eds ≠ [] := by
  intro eds
  induction eds with
  | nil =>
    intro acc h
    rcases h with h | h
    · exact h
    · exact absurd rfl h
  | cons e rest ih =>
    intro acc _
    exact ih (bumpCount acc e) (Or.inl (bumpCount_ne_nil acc e))

theorem edgeCountsGo_ne_nil : ∀ (paths : List (List String))
    (acc : List ((String × String) × Nat)),
    (acc ≠ [] ∨ ∃ p ∈ paths, pathEdges p ≠ []) → edgeCountsGo acc paths ≠ [] := by
  intro paths
  induction paths with
  | nil =>
    intro acc h
    rcases h with h | ⟨p, hp, _⟩
    · exact h
    · cases hp
  | cons p rest ih =>
    intro acc h
    rcases h with h | ⟨q, hq, hqe⟩
    · by_cases hpe : pathEdges p = []
      · show edgeCountsGo (bumpAll acc (pathEdges p)) rest ≠ []
        rw [hpe]
        exact ih _ (Or.inl h)
      · exact ih _ (Or.inl (bumpAll_ne_nil _ _ (Or.inr hpe)))
    · rw [List.mem_cons] at hq
      rcases hq with rfl | hq
      · exact ih _ (Or.inl (bumpAll_ne_nil _ _ (Or.inr hqe)))
      · exact ih _ (Or.inr ⟨q, hq, hqe⟩)

theorem edgeCounts_ne_nil (paths : List (List String)) (p : List String) (hp : p ∈ paths)
    (hne : pathEdges p ≠ []) : edgeCounts paths ≠ [] :=
  edgeCountsGo_ne_nil paths [] (Or.inr ⟨p, hp, hne⟩)

theorem findAllPaths_removeEdge_lt (g : AGraph) (hwf : AGraphWF g) (targets : List String)
    (a b : String) (p : List String) (t0 : String) (ht0 : t0 ∈ targets)
    (hp : p ∈ allSimplePaths g "Internet" t0 10) (he : (a, b) ∈ pathEdges p) :
    (findAllPaths (g.removeEdge a b) targets).length < (findAllPaths g targets).length := by
  unfold findAllPaths
  refine flatMap_length_lt _ _ _ ?_ t0 ht0 ?_
  · intro t _
    exact nodup_length_le (allSimplePaths_nodup (removeEdge_wf hwf a b) _ _ _)
      (allSimplePaths_removeEdge_subset g a b _ t _)
  · exact nodup_length_lt (allSimplePaths_nodup (removeEdge_wf hwf a b) _ _ _)
      (allSimplePaths_removeEdge_subset g a b _ t0 _) p hp
      (allSimplePaths_removeEdge_not_mem g a b _ t0 _ p he)

theorem fixStep_some_eq (g : AGraph) (targets : List String) (k : Nat) (rem : Remediation)
    (g2 : AGraph) (hstep : fixStep g targets k = some (rem, g2)) :
    g2 = g.removeEdge rem.edge_source rem.edge_target ∧
    maxByVal (edgeCounts (findAllPaths g targets)) =
      some ((rem.edge_source, rem.edge_target), rem.paths_blocked) := by
  simp only [fixStep] at hstep
  by_cases hemp : (findAllPaths g targets).isEmpty = true
  · rw [hemp] at hstep
    simp at hstep
  · rw [Bool.not_eq_true] at hemp
    rw [hemp] at hstep
    simp only [Bool.false_eq_true, if_false] at hstep
    cases hmax : maxByVal (edgeCounts (findAllPaths g targets)) with
    | none => rw [hmax] at hstep; cases hstep
    | some enc =>
      rw [hmax] at hstep
      obtain ⟨⟨e1, e2⟩, c⟩ := enc
      simp only [] at hstep
      cases hstep
      exact ⟨rfl, rfl⟩

theorem fixStep_none_eq (g : AGraph) (targets : List String) (k : Nat)
    (hit : "Internet" ∉ targets) (hstep : fixStep g targets k = none) :
    findAllPaths g targets = [] := by
  simp only [fixStep] at hstep
  by_cases hemp : (findAllPaths g targets).isEmpty = true
  · exact List.isEmpty_iff.mp hemp
  · exfalso
    rw [Bool.not_eq_true] at hemp
    rw [hemp] at hstep
    simp only [Bool.false_eq_true, if_false] at hstep
    cases hmax : maxByVal (edgeCounts (findAllPaths g targets)) with
    | some enc =>
      rw [hmax] at hstep
      obtain ⟨⟨e1, e2⟩, c⟩ := enc
      simp only [] at hstep
      cases hstep
    | none =>
      have hcnts := maxByVal_eq_none _ hmax
      have hne : findAllPaths g targets ≠ [] := by
        intro h
        rw [h] at hemp
        simp at hemp
      obtain ⟨p, hp⟩ := List.exists_mem_of_ne_nil _ hne
      have hp' := hp
      unfold findAllPaths at hp'
      rw [List.mem_flatMap] at hp'
      obtain ⟨t, ht, hpt⟩ := hp'
      rw [mem_allSimplePaths_iff] at hpt
      obtain ⟨_, _, hgp, _⟩ := hpt
      match p, hgp, hp with
      | [x], hgp, hp =>
        have hIt := (goodPathB_single_iff.mp hgp).2
        exact hit (hIt ▸ ht)
      | x :: y :: rest, hgp, hp =>
        exact edgeCounts_ne_nil _ _ hp (by simp [pathEdges]) hcnts

theorem fixStep_edge_on_path (g : AGraph) (targets : List String) (k : Nat)
    (rem : Remediation) (g2 : AGraph) (hstep : fixStep g targets k = some (rem, g2)) :
    ∃ t0 ∈ targets, ∃ p ∈ allSimplePaths g "Internet" t0 10,
      (rem.edge_source, rem.edge_target) ∈ pathEdges p := by
  obtain ⟨_, hmax⟩ := fixStep_some_eq g targets k rem g2 hstep
  have hmem := maxByVal_mem _ _ hmax
  obtain ⟨p, hp, hedge⟩ := edgeCounts_key_origin _ _ hmem
  unfold findAllPaths at hp
  rw [List.mem_flatMap] at hp
  obtain ⟨t0, ht0, hpt⟩ := hp
  exact ⟨t0, ht0, p, hpt, hedge⟩

theorem fixStep_props (g : AGraph) (targets : List String) (k : Nat) (rem : Remediation)
    (g2 : AGraph) (hwf : AGraphWF g) (hstep : fixStep g targets k = some (rem, g2)) :
    AGraphWF g2 ∧ g2.edges.length < g.edges.length ∧
    (findAllPaths g2 targets).length < (findAllPaths g targets).length := by
  obtain ⟨hg2, hmax⟩ := fixStep_some_eq g targets k rem g2 hstep
  obtain ⟨t0, ht0, p, hp, hedge⟩ := fixStep_edge_on_path g targets k rem g2 hstep
  have hgood := (mem_allSimplePaths_iff g "Internet" t0 10 p).mp hp
  have hsucc := goodPathB_edges hgood.2.2.1 _ hedge
  rw [mem_successors_iff] at hsucc
  obtain ⟨m, r, hmem⟩ := hsucc
  refine ⟨?_, ?_, ?_⟩
  · rw [hg2]; exact removeEdge_wf hwf _ _
  · rw [hg2]; exact removeEdge_length_lt g _ _ m r hmem
  · rw [hg2]; exact findAllPaths_removeEdge_lt g hwf targets _ _ p t0 ht0 hp hedge

theorem fixStep_eq_map (g : AGraph) (targets : List String) (k : Nat) :
    fixStep g targets k = (fixStep g targets 0).map (fun pr =>
      (⟨"FIX-" ++ pad3 (k + 1), pr.1.description, pr.1.paths_blocked, pr.1.edge_source,
        pr.1.edge_target, pr.1.risk_type⟩, pr.2)) := by
  simp only [fixStep]
  by_cases hemp : (findAllPaths g targets).isEmpty = true
  · rw [hemp]
    simp
  · rw [Bool.not_eq_true] at hemp
    rw [hemp]
    simp only [Bool.false_eq_true, if_false]
    cases hmax : maxByVal (edgeCounts (findAllPaths g targets)) with
    | none => rfl
    | some enc =>
      obtain ⟨⟨e1, e2⟩, c⟩ := enc
      rfl

theorem fixStepGraph_of_step (g : AGraph) (targets : List String) (k : Nat) (rem : Remediation)
    (g2 : AGraph) (hstep : fixStep g targets k = some (rem, g2)) :
    fixStepGraph targets g = g2 := by
  unfold fixStepGraph
  have hmap := fixStep_eq_map g targets k
  rw [hstep] at hmap
  cases h0 : fixStep g targets 0 with
  | none => rw [h0] at hmap; cases hmap
  | some pr0 =>
    rw [h0] at hmap
    simp only [Option.map] at hmap
    have hpair := Option.some.inj hmap
    exact (congrArg Prod.snd hpair).symm

theorem fixStepGraph_of_none (g : AGraph) (targets : List String) (k : Nat)
    (hstep : fixStep g targets k = none) : fixStepGraph targets g = g := by
  unfold fixStepGraph
  have hmap := fixStep_eq_map g targets k
  rw [hstep] at hmap
  cases h0 : fixStep g targets 0 with
  | none => rfl
  | some pr0 => rw [h0] at hmap; cases hmap

theorem fixGraphAt_shift (targets : List String) (g g2 : AGraph)
    (hsg : fixStepGraph targets g = g2) :
    ∀ j, fixGraphAt targets g (j + 1) = fixGraphAt targets g2 j := by
  intro j
  induction j with
  | zero => simp [fixGraphAt, hsg]
  | succ j' ih =>
    show fixStepGraph targets (fixGraphAt targets g (j' + 1)) = fixGraphAt targets g2 (j' + 1)
    rw [ih]
    rfl

theorem fixGraphAt_wf (targets : List String) (g : AGraph) (hwf : AGraphWF g) :
    ∀ k, AGraphWF (fixGraphAt targets g k) := by
  intro k
  induction k with
  | zero => exact hwf
  | succ k' ih =>
    show AGraphWF (fixStepGraph targets (fixGraphAt targets g k'))
    unfold fixStepGraph
    cases hstep : fixStep (fixGraphAt targets g k') targets 0 with
    | none => exact ih
    | some pr =>
      obtain ⟨rem, g2⟩ := pr
      exact (fixStep_props _ targets 0 rem g2 ih hstep).1

theorem fixLoop_get (targets : List String) :
    ∀ (fuel : Nat) (g : AGraph) (k0 i : Nat) (rem : Remediation),
      (fixLoop targets fuel g k0).1[i]? = some rem →
      fixStep (fixGraphAt targets g i) targets (k0 + i) =
        some (rem, fixGraphAt targets g (i + 1)) := by
  intro fuel
  induction fuel with
  | zero =>
    intro g k0 i rem h
    simp [fixLoop] at h
  | succ f ih =>
    intro g k0 i rem h
    simp only [fixLoop] at h
    cases hstep : fixStep g targets k0 with
    | none =>
      rw [hstep] at h
      simp at h
    | some pr =>
      obtain ⟨rem0, g2⟩ := pr
      rw [hstep] at h
      simp only [] at h
      have hsg : fixStepGraph targets g = g2 := fixStepGraph_of_step g targets k0 rem0 g2 hstep
      cases i with
      | zero =>
        rw [List.getElem?_cons_zero] at h
        cases h
        show fixStep g targets k0 = some (rem, fixGraphAt targets g 1)
        have h1 : fixGraphAt targets g 1 = g2 := by
          show fixStepGraph targets (fixGraphAt targets g 0) = g2
          exact hsg
        rw [h1]
        exact hstep
      | succ i' =>
        rw [List.getElem?_cons_succ] at h
        have hrec := ih g2 (k0 + 1) i' rem h
        have hs1 := fixGraphAt_shift targets g g2 hsg i'
        have hs2 := fixGraphAt_shift targets g g2 hsg (i' + 1)
        rw [hs1, hs2]
        rw [show k0 + (i' + 1) = k0 + 1 + i' by omega]
        exact hrec

theorem fixLoop_final (targets : List String) :
    ∀ (fuel : Nat) (g : AGraph) (k0 : Nat),
      (fixLoop targets fuel g k0).2 =
        fixGraphAt targets g (fixLoop targets fuel g k0).1.length := by
  intro fuel
  induction fuel with
  | zero => intro g k0; rfl
  | succ f ih =>
    intro g k0
    simp only [fixLoop]
    cases hstep : fixStep g targets k0 with
    | none => rfl
    | some pr =>
      obtain ⟨rem0, g2⟩ := pr
      simp only [List.length_cons]
      have hsg : fixStepGraph targets g = g2 := fixStepGraph_of_step g targets k0 rem0 g2 hstep
      rw [fixGraphAt_shift targets g g2 hsg]
      exact ih g2 (k0 + 1)

theorem fixLoop_closure (targets : List String) (hit : "Internet" ∉ targets) :
    ∀ (fuel : Nat) (g : AGraph) (k0 : Nat), AGraphWF g → g.edges.length < fuel →
      findAllPaths (fixLoop targets fuel g k0).2 targets = [] := by
  intro fuel
  induction fuel with
  | zero => intro g k0 _ h; omega
  | succ f ih =>
    intro g k0 hwf hlen
    simp only [fixLoop]
    cases hstep : fixStep g targets k0 with
    | none => exact fixStep_none_eq g targets k0 hit hstep
    | some pr =>
      obtain ⟨rem0, g2⟩ := pr
      obtain ⟨hwf2, hlen2, _⟩ := fixStep_props g targets k0 rem0 g2 hwf hstep
      exact ih g2 (k0 + 1) hwf2 (by omega)

theorem fixLoop_length_le (targets : List String) :
    ∀ (fuel : Nat) (g : AGraph) (k0 : Nat), AGraphWF g → g.edges.length < fuel →
      (fixLoop targets fuel g k0).1.length ≤ g.edges.length := by
  intro fuel
  induction fuel with
  | zero => intro g k0 _ h; omega
  | succ f ih =>
    intro g k0 hwf hlen
    simp only [fixLoop]
    cases hstep : fixStep g targets k0 with
    | none => simp
    | some pr =>
      obtain ⟨rem0, g2⟩ := pr
      obtain ⟨hwf2, hlen2, _⟩ := fixStep_props g targets k0 rem0 g2 hwf hstep
      simp only [List.length_cons]
      have := ih g2 (k0 + 1) hwf2 (by omega)
      omega

/-! ### C8 -/

/-- C8 counterexample: with an attack graph consisting of the sole node
`Internet` and a sink set containing `Internet` itself, the fix loop emits
no remediation, yet on exit the bounded enumeration still finds the
trivial Internet-to-sink path (networkx 3.2.1 yields `[source]` when the
source equals the target). -/
theorem c8_counterexample :
    calculateFixOrder ⟨["Internet"], []⟩ ["Internet"] = [] ∧
    findAllPaths ⟨["Internet"], []⟩ ["Internet"] = [["Internet"]] :=
  ⟨rfl, rfl⟩

/-- C8 (amended): on a well-formed attack graph (the networkx invariants:
one entry per (src, dst) pair, endpoints present as nodes) the greedy loop
is monotonically disconnecting — removing the k-th remediation's edge
strictly decreases the number of enumerated Internet-to-sink paths; the
remediation list is finite, of length at most the number of attack edges;
and provided the origin is not itself a sink, on exit the bounded
enumeration finds no Internet-to-sink path. -/
theorem c8_greedy_disconnection (g : AGraph) (targets : List String)
    (hwf : AGraphWF g) (hit : "Internet" ∉ targets) :
    (∀ k rem, (calculateFixOrder g targets)[k]? = some rem →
        fixGraphAt targets g (k + 1) =
          (fixGraphAt targets g k).removeEdge rem.edge_source rem.edge_target ∧
        (findAllPaths (fixGraphAt targets g (k + 1)) targets).length <
          (findAllPaths (fixGraphAt targets g k) targets).length) ∧
    (calculateFixOrder g targets).length ≤ g.edges.length ∧
    findAllPaths (fixGraphAt targets g (calculateFixOrder g targets).length) targets = [] := by
  have hfuel : g.edges.length < g.edges.length + 1 := Nat.lt_succ_self _
  refine ⟨?_, ?_, ?_⟩
  · intro k rem h
    have hstep := fixLoop_get targets (g.edges.length + 1) g 0 k rem h
    rw [Nat.zero_add] at hstep
    have hwfk := fixGraphAt_wf targets g hwf k
    obtain ⟨hg2, _⟩ := fixStep_some_eq _ targets k rem _ hstep
    obtain ⟨_, _, hdec⟩ := fixStep_props _ targets k rem _ hwfk hstep
    exact ⟨hg2, hdec⟩
  · exact fixLoop_length_le targets _ g 0 hwf hfuel
  · have hfin := fixLoop_final targets (g.edges.length + 1) g 0
    have hcl := fixLoop_closure targets hit (g.edges.length + 1) g 0 hwf hfuel
    rw [hfin] at hcl
    exact hcl

/-- Witness for the amended C8 at a concrete graph and sink set. -/
theorem c8_greedy_disconnection_witness :
    (AGraphWF c8g ∧ "Internet" ∉ ["b1", "b2"]) ∧
    ((∀ k rem, (calculateFixOrder c8g ["b1", "b2"])[k]? = some rem →
        fixGraphAt ["b1", "b2"] c8g (k + 1) =
          (fixGraphAt ["b1", "b2"] c8g k).removeEdge rem.edge_source rem.edge_target ∧
        (findAllPaths (fixGraphAt ["b1", "b2"] c8g (k + 1)) ["b1", "b2"]).length <
          (findAllPaths (fixGraphAt ["b1", "b2"] c8g k) ["b1", "b2"]).length) ∧
    (calculateFixOrder c8g ["b1", "b2"]).length ≤ c8g.edges.length ∧
    findAllPaths (fixGraphAt ["b1", "b2"] c8g (calculateFixOrder c8g ["b1", "b2"]).length)
      ["b1", "b2"] = []) :=
  ⟨⟨⟨by decide, by decide⟩, by decide⟩,
   c8_greedy_disconnection c8g ["b1", "b2"] ⟨by decide, by decide⟩ (by decide)⟩

/-! ### C7 machinery: semantics of the edge-counts dictionary -/

theorem countVal_bumpCount : ∀ (acc : List ((String × String) × Nat)) (e f : String × String),
    countVal (bumpCount acc e) f = countVal acc f + (if e = f then 1 else 0) := by
  intro acc
  induction acc with
  | nil =>
    intro e f
    simp [bumpCount, countVal]
  | cons en rest ih =>
    intro e f
    obtain ⟨e', n⟩ := en
    simp only [bumpCount]
    by_cases he : e' = e
    · rw [if_pos he]
      simp only [countVal]
      by_cases hf : e' = f
      · rw [if_pos hf, if_pos hf, if_pos (he.symm.trans hf)]
      · rw [if_neg hf, if_neg hf, if_neg (fun h => hf (he.trans h))]
        omega
    · rw [if_neg he]
      simp only [countVal]
      by_cases hf : e' = f
      · rw [if_pos hf, if_pos hf, if_neg (fun h => he (hf.trans h.symm))]
        omega
      · rw [if_neg hf, if_neg hf]
        exact ih e f

theorem countVal_bumpAll : ∀ (eds : List (String × String))
    (acc : List ((String × String) × Nat)) (f : String × String),
    countVal (bumpAll acc eds) f = countVal acc f + eds.countP (fun x => x == f) := by
  intro eds
  induction eds with
  | nil => intro acc f; simp [bumpAll]
  | cons e rest ih =>
    intro acc f
    show countVal (bumpAll (bumpCount acc e) rest) f = _
    rw [ih (bumpCount acc e) f, countVal_bumpCount, List.countP_cons]
    by_cases hef : e = f
    · subst hef
      simp only [if_pos rfl, beq_self_eq_true, if_true]
      omega
    · simp only [if_neg hef, beq_iff_eq, hef, Bool.false_eq_true, if_false]
      omega

theorem countVal_edgeCountsGo : ∀ (paths : List (List String))
    (acc : List ((String × String) × Nat)) (f : String × String),
    countVal (edgeCountsGo acc paths) f =
      countVal acc f + (paths.map (fun p => (pathEdges p).countP (fun x => x == f))).sum := by
  intro paths
  induction paths with
  | nil => intro acc f; simp [edgeCountsGo]
  | cons p rest ih =>
    intro acc f
    show countVal (edgeCountsGo (bumpAll acc (pathEdges p)) rest) f = _
    rw [ih (bumpAll acc (pathEdges p)) f, countVal_bumpAll]
    simp only [List.map_cons, List.sum_cons]
    omega

theorem countVal_edgeCounts (paths : List (List String)) (f : String × String) :
    countVal (edgeCounts paths) f =
      (paths.map (fun p => (pathEdges p).countP (fun x => x == f))).sum := by
  show countVal (edgeCountsGo [] paths) f = _
  rw [countVal_edgeCountsGo]
  simp [countVal]

theorem countP_beq_of_nodup : ∀ (l : List (String × String)), l.Nodup →
    ∀ (f : String × String), l.countP (fun x => x == f) = if f ∈ l then 1 else 0 := by
  intro l
  induction l with
  | nil => intro _ f; simp
  | cons x rest ih =>
    intro hnd f
    rw [List.nodup_cons] at hnd
    rw [List.countP_cons]
    by_cases hxf : x = f
    · subst hxf
      have h0 : rest.countP (fun y => y == x) = 0 := by
        rw [List.countP_eq_zero]
        intro a ha hax
        rw [beq_iff_eq] at hax
        exact hnd.1 (hax ▸ ha)
      rw [h0]
      simp
    · have hb : (x == f) = false := by
        rw [beq_eq_false_iff_ne]
        exact hxf
      rw [hb]
      simp only [Bool.false_eq_true, if_false, Nat.add_zero]
      rw [ih hnd.2 f]
      by_cases hfr : f ∈ rest
      · rw [if_pos hfr, if_pos (List.mem_cons_of_mem _ hfr)]
      · have hnm : f ∉ x :: rest := by
          rw [List.mem_cons]
          rintro (rfl | hmm)
          · exact hxf rfl
          · exact hfr hmm
        rw [if_neg hfr, if_neg hnm]

theorem sum_countP_eq_countP (f : String × String) : ∀ (paths : List (List String)),
    (∀ p ∈ paths, (pathEdges p).Nodup) →
    (paths.map (fun p => (pathEdges p).countP (fun x => x == f))).sum =
      paths.countP (fun p => decide (f ∈ pathEdges p)) := by
  intro paths
  induction paths with
  | nil => intro _; simp
  | cons p rest ih =>
    intro hnd
    simp only [List.map_cons, List.sum_cons, List.countP_cons]
    rw [countP_beq_of_nodup _ (hnd p (List.mem_cons_self _ _)) f]
    rw [ih (fun q hq => hnd q (List.mem_cons_of_mem _ hq))]
    by_cases hm : f ∈ pathEdges p
    · simp [hm]
      omega
    · simp [hm]

theorem pathEdges_map_fst : ∀ (p : List String), (pathEdges p).map Prod.fst = p.dropLast
  | [] => rfl
  | [_] => rfl
  | u :: v :: rest => by
    show (u, v).1 :: (pathEdges (v :: rest)).map Prod.fst = (u :: v :: rest).dropLast
    rw [pathEdges_map_fst (v :: rest), List.dropLast_cons₂]

theorem pathEdges_nodup {p : List String} (h : p.Nodup) : (pathEdges p).Nodup := by
  have hdl : p.dropLast.Nodup := List.Nodup.sublist (List.dropLast_sublist p) h
  rw [← pathEdges_map_fst p] at hdl
  exact List.Nodup.of_map _ hdl

theorem countVal_of_mem : ∀ (counts : List ((String × String) × Nat))
    (x : (String × String) × Nat), (counts.map Prod.fst).Nodup → x ∈ counts →
    countVal counts x.1 = x.2 := by
  intro counts
  induction counts with
  | nil => intro x _ hx; cases hx
  | cons en rest ih =>
    intro x hnd hx
    obtain ⟨e', n⟩ := en
    rw [List.map_cons, List.nodup_cons] at hnd
    rw [List.mem_cons] at hx
    rcases hx with rfl | hx
    · simp [countVal]
    · have hne : e' ≠ x.1 := by
        intro h
        apply hnd.1
        rw [h]
        exact List.mem_map.mpr ⟨x, hx, rfl⟩
      simp only [countVal, if_neg hne]
      exact ih x hnd.2 hx

theorem countVal_mem_or_zero : ∀ (counts : List ((String × String) × Nat))
    (f : String × String), countVal counts f = 0 ∨ (f, countVal counts f) ∈ counts := by
  intro counts
  induction counts with
  | nil => intro f; exact Or.inl rfl
  | cons en rest ih =>
    intro f
    obtain ⟨e', n⟩ := en
    simp only [countVal]
    by_cases he : e' = f
    · rw [if_pos he]
      exact Or.inr (by rw [he]; exact List.mem_cons_self _ _)
    · rw [if_neg he]
      rcases ih f with h | h
      · exact Or.inl h
      · exact Or.inr (List.mem_cons_of_mem _ h)

theorem bumpCount_keys : ∀ (acc : List ((String × String) × Nat)) (e : String × String),
    (bumpCount acc e).map Prod.fst =
      if e ∈ acc.map Prod.fst then acc.map Prod.fst else acc.map Prod.fst ++ [e] := by
  intro acc
  induction acc with
  | nil => intro e; simp [bumpCount]
  | cons en rest ih =>
    intro e
    obtain ⟨e', n⟩ := en
    simp only [bumpCount]
    by_cases he : e' = e
    · rw [if_pos he]
      have hmem : e ∈ ((e', n) :: rest).map Prod.fst := by
        rw [List.map_cons]
        exact he ▸ List.mem_cons_self _ _
      rw [if_pos hmem]
      simp
    · rw [if_neg he]
      rw [List.map_cons, List.map_cons, ih e]
      by_cases hmem : e ∈ rest.map Prod.fst
      · rw [if_pos hmem, if_pos (List.mem_cons_of_mem _ hmem)]
      · rw [if_neg hmem]
        have : e ∉ (e' :: rest.map Prod.fst) := by
          rw [List.mem_cons]
          rintro (rfl | h)
          · exact he rfl
          · exact hmem h
        rw [if_neg this]
        rfl

theorem bumpCount_keys_nodup (acc : List ((String × String) × Nat)) (e : String × String)
    (h : (acc.map Prod.fst).Nodup) : ((bumpCount acc e).map Prod.fst).Nodup := by
  rw [bumpCount_keys]
  by_cases hmem : e ∈ acc.map Prod.fst
  · rw [if_pos hmem]
    exact h
  · rw [if_neg hmem]
    rw [List.nodup_append]
    refine ⟨h, List.nodup_singleton e, ?_⟩
    intro a ha hb
    rw [List.mem_singleton] at hb
    exact hmem (hb ▸ ha)

theorem bumpAll_keys_nodup : ∀ (eds : List (String × String))
    (acc : List ((String × String) × Nat)), (acc.map Prod.fst).Nodup →
    ((bumpAll acc eds).map Prod.fst).Nodup := by
  intro eds
  induction eds with
  | nil => intro acc h; exact h
  | cons e rest ih =>
    intro acc h
    exact ih (bumpCount acc e) (bumpCount_keys_nodup acc e h)

theorem edgeCountsGo_keys_nodup : ∀ (paths : List (List String))
    (acc : List ((String × String) × Nat)), (acc.map Prod.fst).Nodup →
    ((edgeCountsGo acc paths).map Prod.fst).Nodup := by
  intro paths
  induction paths with
  | nil => intro acc h; exact h
  | cons p rest ih =>
    intro acc h
    exact ih (bumpAll acc (pathEdges p)) (bumpAll_keys_nodup (pathEdges p) acc h)

theorem edgeCounts_keys_nodup (paths : List (List String)) :
    ((edgeCounts paths).map Prod.fst).Nodup :=
  edgeCountsGo_keys_nodup paths [] List.nodup_nil

theorem countVal_edgeCounts_countP (paths : List (List String))
    (hnd : ∀ p ∈ paths, (pathEdges p).Nodup) (f : String × String) :
    countVal (edgeCounts paths) f = paths.countP (fun p => decide (f ∈ pathEdges p)) := by
  rw [countVal_edgeCounts, sum_countP_eq_countP f paths hnd]

theorem findAllPaths_nodup (g : AGraph) (targets : List String) (p : List String)
    (hp : p ∈ findAllPaths g targets) : p.Nodup := by
  unfold findAllPaths at hp
  rw [List.mem_flatMap] at hp
  obtain ⟨t, _, hpt⟩ := hp
  rw [mem_allSimplePaths_iff] at hpt
  exact (goodPathB_nodup hpt.2.2.1 (List.not_mem_nil _)).1

/-! ### C7 -/

/-- C7 (amended): every emitted remediation records as `paths_blocked` the
selected edge's participation count — the number of currently enumerated
Internet-to-sink paths containing that edge — and this count is maximal
over all edges.  (The tie among maximal edges is broken by first insertion
into `edge_counts` — path order, each path front to back — not by cut
path-length or lexicographic (source, target) order; see the
counterexample.) -/
theorem c7_max_participation (g : AGraph) (targets : List String) (k : Nat) (rem : Remediation)
    (h : (calculateFixOrder g targets)[k]? = some rem) :
    rem.paths_blocked =
      (findAllPaths (fixGraphAt targets g k) targets).countP
        (fun p => decide ((rem.edge_source, rem.edge_target) ∈ pathEdges p)) ∧
    ∀ e : String × String,
      (findAllPaths (fixGraphAt targets g k) targets).countP
        (fun p => decide (e ∈ pathEdges p)) ≤ rem.paths_blocked := by
  have hstep := fixLoop_get targets (g.edges.length + 1) g 0 k rem h
  rw [Nat.zero_add] at hstep
  obtain ⟨_, hmax⟩ := fixStep_some_eq _ targets k rem _ hstep
  have hnd : ∀ p ∈ findAllPaths (fixGraphAt targets g k) targets, (pathEdges p).Nodup :=
    fun p hp => pathEdges_nodup (findAllPaths_nodup _ targets p hp)
  have hbridge := countVal_edgeCounts_countP (findAllPaths (fixGraphAt targets g k) targets) hnd
  constructor
  · have hmem := maxByVal_mem _ _ hmax
    have hval := countVal_of_mem _ _ (edgeCounts_keys_nodup _) hmem
    rw [hbridge] at hval
    exact hval.symm
  · intro e
    rcases countVal_mem_or_zero (edgeCounts (findAllPaths (fixGraphAt targets g k) targets)) e
      with h0 | hmem
    · rw [← hbridge e, h0]
      exact Nat.zero_le _
    · have hle := maxByVal_is_max _ _ hmax _ hmem
      rw [← hbridge e]
      exact hle

/-- C7 counterexample: both edges lie on exactly one enumerated path each
(the participation counts tie at 1 and the cut path-lengths tie as well),
yet the first remediation removes (Internet, aws_s3_bucket.zz) — the edge
first inserted into `edge_counts` — not the lexicographically smaller
(Internet, aws_s3_bucket.aa). -/
theorem c7_counterexample :
    (calculateFixOrder c7g c7t).map
        (fun r => (r.edge_source, r.edge_target, r.paths_blocked)) =
      [("Internet", "aws_s3_bucket.zz", 1), ("Internet", "aws_s3_bucket.aa", 1)] := rfl

/-- Witness for the amended C7 at a concrete graph and sink set. -/
theorem c7_max_participation_witness :
    ((calculateFixOrder c7g c7t)[0]? = some c7rem) ∧
    (c7rem.paths_blocked =
      (findAllPaths (fixGraphAt c7t c7g 0) c7t).countP
        (fun p => decide ((c7rem.edge_source, c7rem.edge_target) ∈ pathEdges p)) ∧
    ∀ e : String × String,
      (findAllPaths (fixGraphAt c7t c7g 0) c7t).countP
        (fun p => decide (e ∈ pathEdges p)) ≤ c7rem.paths_blocked) :=
  ⟨rfl, c7_max_participation c7g c7t 0 c7rem rfl⟩

/-! ### C5 machinery: shortest-path model and the target loop -/

theorem mkAttackPath_steps_length (g : RGraph) (ids : List String) :
    (mkAttackPath g ids).steps.length = ids.length := by
  simp [mkAttackPath]

theorem argminLen_eq_none : ∀ (l : List (List String)), argminLen l = none ↔ l = [] := by
  intro l
  cases l with
  | nil => simp [argminLen]
  | cons p rest =>
    simp only [argminLen]
    constructor
    · intro h
      cases hrest : argminLen rest with
      | none => rw [hrest] at h; simp only [] at h; cases h
      | some q =>
        rw [hrest] at h
        simp only [] at h
        by_cases hlt : q.length < p.length
        · rw [if_pos hlt] at h; cases h
        · rw [if_neg hlt] at h; cases h
    · intro h; cases h

theorem argminLen_mem : ∀ (l : List (List String)) (p : List String),
    argminLen l = some p → p ∈ l := by
  intro l
  induction l with
  | nil => intro p h; cases h
  | cons q rest ih =>
    intro p h
    simp only [argminLen] at h
    cases hrest : argminLen rest with
    | none =>
      rw [hrest] at h
      simp only [] at h
      cases h
      exact List.mem_cons_self _ _
    | some r =>
      rw [hrest] at h
      simp only [] at h
      by_cases hlt : r.length < q.length
      · rw [if_pos hlt] at h
        cases h
        exact List.mem_cons_of_mem _ (ih _ hrest)
      · rw [if_neg hlt] at h
        cases h
        exact List.mem_cons_self _ _

theorem argminLen_min : ∀ (l : List (List String)) (p : List String),
    argminLen l = some p → ∀ q ∈ l, p.length ≤ q.length := by
  intro l
  induction l with
  | nil => intro p h; cases h
  | cons r rest ih =>
    intro p h q hq
    simp only [argminLen] at h
    rw [List.mem_cons] at hq
    cases hrest : argminLen rest with
    | none =>
      rw [hrest] at h
      simp only [] at h
      cases h
      rcases hq with rfl | hq
      · exact Nat.le_refl _
      · rw [(argminLen_eq_none rest).mp hrest] at hq
        cases hq
    | some s =>
      rw [hrest] at h
      simp only [] at h
      by_cases hlt : s.length < r.length
      · rw [if_pos hlt] at h
        cases h
        rcases hq with rfl | hq
        · exact Nat.le_of_lt hlt
        · exact ih _ hrest q hq
      · rw [if_neg hlt] at h
        cases h
        rcases hq with rfl | hq
        · exact Nat.le_refl _
        · exact Nat.le_trans (Nat.le_of_not_lt hlt) (ih _ hrest q hq)

theorem shortestPathModel_none_iff (ag : AGraph) (s t : String) :
    shortestPathModel ag s t = none ↔ allSimplePaths ag s t ag.nodes.length = [] := by
  unfold shortestPathModel allSimplePaths
  by_cases h : (ag.hasNode s && ag.hasNode t) = true
  · rw [if_pos h, if_pos h]
    exact argminLen_eq_none _
  · rw [if_neg h, if_neg h]
    simp

theorem shortestPathModel_spec (ag : AGraph) (s t : String) (p : List String)
    (h : shortestPathModel ag s t = some p) :
    p ∈ allSimplePaths ag s t ag.nodes.length ∧
      ∀ q ∈ allSimplePaths ag s t ag.nodes.length, p.length ≤ q.length := by
  unfold shortestPathModel at h
  unfold allSimplePaths
  by_cases hc : (ag.hasNode s && ag.hasNode t) = true
  · rw [if_pos hc] at h
    rw [if_pos hc]
    exact ⟨argminLen_mem _ _ h, argminLen_min _ _ h⟩
  · rw [if_neg hc] at h
    cases h

theorem shortestPathModel_not_hasNode (ag : AGraph) (s t : String)
    (h : ag.hasNode t = false) : shortestPathModel ag s t = none := by
  unfold shortestPathModel
  rw [h]
  simp

theorem criticalLoop_of_all_none (g : RGraph) (ag : AGraph) : ∀ (ts : List String)
    (best : Option AttackPath),
    (∀ t ∈ ts, shortestPathModel ag "Internet" t = none) →
    criticalLoop g ag ts best = best := by
  intro ts
  induction ts with
  | nil => intro best _; rfl
  | cons t rest ih =>
    intro best hall
    simp only [criticalLoop]
    cases hn : ag.hasNode t with
    | false =>
      exact ih best (fun u hu => hall u (List.mem_cons_of_mem _ hu))
    | true =>
      rw [hall t (List.mem_cons_self _ _)]
      exact ih best (fun u hu => hall u (List.mem_cons_of_mem _ hu))

theorem criticalLoop_eq_none (g : RGraph) (ag : AGraph) : ∀ (ts : List String)
    (best : Option AttackPath), criticalLoop g ag ts best = none →
    best = none ∧ ∀ t ∈ ts, shortestPathModel ag "Internet" t = none := by
  intro ts
  induction ts with
  | nil =>
    intro best h
    exact ⟨h, fun t ht => absurd ht (List.not_mem_nil t)⟩
  | cons t rest ih =>
    intro best h
    simp only [criticalLoop] at h
    cases hn : ag.hasNode t with
    | false =>
      rw [hn] at h
      simp only [Bool.not_false, eq_self_iff_true, if_true] at h
      obtain ⟨hb, hrest⟩ := ih best h
      refine ⟨hb, ?_⟩
      intro u hu
      rcases List.mem_cons.mp hu with rfl | hu
      · exact shortestPathModel_not_hasNode ag _ u hn
      · exact hrest u hu
    | true =>
      rw [hn] at h
      simp only [Bool.not_true, Bool.false_eq_true, if_false] at h
      cases hm : shortestPathModel ag "Internet" t with
      | none =>
        rw [hm] at h
        simp only [] at h
        obtain ⟨hb, hrest⟩ := ih best h
        refine ⟨hb, ?_⟩
        intro u hu
        rcases List.mem_cons.mp hu with rfl | hu
        · exact hm
        · exact hrest u hu
      | some ids =>
        rw [hm] at h
        simp only [] at h
        exfalso
        cases best with
        | none =>
          simp only [] at h
          cases (ih _ h).1
        | some b =>
          simp only [] at h
          by_cases hlt : (mkAttackPath g ids).steps.length < b.steps.length
          · rw [if_pos hlt] at h
            cases (ih _ h).1
          · rw [if_neg hlt] at h
            cases (ih _ h).1

theorem criticalLoop_min (g : RGraph) (ag : AGraph) : ∀ (ts : List String)
    (best : Option AttackPath) (ap : AttackPath), criticalLoop g ag ts best = some ap →
    (∀ b, best = some b → ap.steps.length ≤ b.steps.length) ∧
    (∀ t ∈ ts, ∀ ids, shortestPathModel ag "Internet" t = some ids →
      ap.steps.length ≤ ids.length) := by
  intro ts
  induction ts with
  | nil =>
    intro best ap h
    refine ⟨?_, ?_⟩
    · intro b hb
      rw [hb] at h
      cases h
      exact Nat.le_refl _
    · intro t ht
      cases ht
  | cons t rest ih =>
    intro best ap h
    simp only [criticalLoop] at h
    cases hn : ag.hasNode t with
    | false =>
      rw [hn] at h
      simp only [Bool.not_false, eq_self_iff_true, if_true] at h
      obtain ⟨h1, h2⟩ := ih best ap h
      refine ⟨h1, ?_⟩
      intro u hu ids hids
      rcases List.mem_cons.mp hu with rfl | hu
      · rw [shortestPathModel_not_hasNode ag _ u hn] at hids
        cases hids
      · exact h2 u hu ids hids
    | true =>
      rw [hn] at h
      simp only [Bool.not_true, Bool.false_eq_true, if_false] at h
      cases hm : shortestPathModel ag "Internet" t with
      | none =>
        rw [hm] at h
        simp only [] at h
        obtain ⟨h1, h2⟩ := ih best ap h
        refine ⟨h1, ?_⟩
        intro u hu ids hids
        rcases List.mem_cons.mp hu with rfl | hu
        · rw [hm] at hids
          cases hids
        · exact h2 u hu ids hids
      | some ids0 =>
        rw [hm] at h
        simp only [] at h
        cases best with
        | none =>
          simp only [] at h
          obtain ⟨h1, h2⟩ := ih _ ap h
          have hlen : ap.steps.length ≤ ids0.length := by
            have hx := h1 (mkAttackPath g ids0) rfl
            rwa [mkAttackPath_steps_length] at hx
          refine ⟨?_, ?_⟩
          · intro b hb
            cases hb
          · intro u hu ids hids
            rcases List.mem_cons.mp hu with rfl | hu
            · rw [hm] at hids
              cases Option.some.inj hids
              exact hlen
            · exact h2 u hu ids hids
        | some b =>
          simp only [] at h
          by_cases hlt : (mkAttackPath g ids0).steps.length < b.steps.length
          · rw [if_pos hlt] at h
            obtain ⟨h1, h2⟩ := ih _ ap h
            have hlen : ap.steps.length ≤ ids0.length := by
              have hx := h1 (mkAttackPath g ids0) rfl
              rwa [mkAttackPath_steps_length] at hx
            refine ⟨?_, ?_⟩
            · intro b' hb'
              cases Option.some.inj hb'
              exact Nat.le_trans (h1 _ rfl) (Nat.le_of_lt hlt)
            · intro u hu ids hids
              rcases List.mem_cons.mp hu with rfl | hu
              · rw [hm] at hids
                cases Option.some.inj hids
                exact hlen
              · exact h2 u hu ids hids
          · rw [if_neg hlt] at h
            obtain ⟨h1, h2⟩ := ih _ ap h
            have hb : ap.steps.length ≤ b.steps.length := h1 b rfl
            refine ⟨?_, ?_⟩
            · intro b' hb'
              cases Option.some.inj hb'
              exact hb
            · intro u hu ids hids
              rcases List.mem_cons.mp hu with rfl | hu
              · rw [hm] at hids
                cases Option.some.inj hids
                have hge : b.steps.length ≤ (mkAttackPath g ids0).steps.length :=
                  Nat.le_of_not_lt hlt
                rw [mkAttackPath_steps_length] at hge
                exact Nat.le_trans hb hge
              · exact h2 u hu ids hids

theorem criticalLoop_origin (g : RGraph) (ag : AGraph) : ∀ (ts : List String)
    (best : Option AttackPath) (ap : AttackPath), criticalLoop g ag ts best = some ap →
    best = some ap ∨ ∃ t ∈ ts, ∃ ids, shortestPathModel ag "Internet" t = some ids ∧
      ap = mkAttackPath g ids := by
  intro ts
  induction ts with
  | nil =>
    intro best ap h
    exact Or.inl h
  | cons t rest ih =>
    intro best ap h
    simp only [criticalLoop] at h
    cases hn : ag.hasNode t with
    | false =>
      rw [hn] at h
      simp only [Bool.not_false, eq_self_iff_true, if_true] at h
      rcases ih best ap h with h1 | ⟨u, hu, ids, hids, hap⟩
      · exact Or.inl h1
      · exact Or.inr ⟨u, List.mem_cons_of_mem _ hu, ids, hids, hap⟩
    | true =>
      rw [hn] at h
      simp only [Bool.not_true, Bool.false_eq_true, if_false] at h
      cases hm : shortestPathModel ag "Internet" t with
      | none =>
        rw [hm] at h
        simp only [] at h
        rcases ih best ap h with h1 | ⟨u, hu, ids, hids, hap⟩
        · exact Or.inl h1
        · exact Or.inr ⟨u, List.mem_cons_of_mem _ hu, ids, hids, hap⟩
      | some ids0 =>
        rw [hm] at h
        simp only [] at h
        cases best with
        | none =>
          simp only [] at h
          rcases ih _ ap h with h1 | ⟨u, hu, ids, hids, hap⟩
          · exact Or.inr ⟨t, List.mem_cons_self _ _, ids0, hm,
              (Option.some.inj h1).symm⟩
          · exact Or.inr ⟨u, List.mem_cons_of_mem _ hu, ids, hids, hap⟩
        | some b =>
          simp only [] at h
          by_cases hlt : (mkAttackPath g ids0).steps.length < b.steps.length
          · rw [if_pos hlt] at h
            rcases ih _ ap h with h1 | ⟨u, hu, ids, hids, hap⟩
            · exact Or.inr ⟨t, List.mem_cons_self _ _, ids0, hm,
                (Option.some.inj h1).symm⟩
            · exact Or.inr ⟨u, List.mem_cons_of_mem _ hu, ids, hids, hap⟩
          · rw [if_neg hlt] at h
            rcases ih _ ap h with h1 | ⟨u, hu, ids, hids, hap⟩
            · exact Or.inl h1
            · exact Or.inr ⟨u, List.mem_cons_of_mem _ hu, ids, hids, hap⟩

theorem c5_min_path (g : RGraph) (ag : AGraph) :
    (findCriticalPath g ag = none ↔
      ∀ t ∈ criticalTargets g, allSimplePaths ag "Internet" t ag.nodes.length = []) ∧
    ∀ ap, findCriticalPath g ag = some ap →
      ∃ t ∈ criticalTargets g, ∃ ids ∈ allSimplePaths ag "Internet" t ag.nodes.length,
        ap = mkAttackPath g ids ∧
        ∀ t' ∈ criticalTargets g, ∀ q ∈ allSimplePaths ag "Internet" t' ag.nodes.length,
          ids.length ≤ q.length := by
  by_cases hemp : (criticalTargets g).isEmpty = true
  · have h0 : criticalTargets g = [] := List.isEmpty_iff.mp hemp
    constructor
    · constructor
      · intro _ t ht
        rw [h0] at ht
        cases ht
      · intro _
        simp only [findCriticalPath]
        rw [if_pos hemp]
    · intro ap hap
      simp only [findCriticalPath] at hap
      rw [if_pos hemp] at hap
      cases hap
  · have hloop : findCriticalPath g ag = criticalLoop g ag (criticalTargets g) none := by
      simp only [findCriticalPath]
      rw [if_neg hemp]
    constructor
    · rw [hloop]
      constructor
      · intro hnone t ht
        have hall := (criticalLoop_eq_none g ag _ none hnone).2 t ht
        exact (shortestPathModel_none_iff ag "Internet" t).mp hall
      · intro hall
        exact criticalLoop_of_all_none g ag _ none
          (fun t ht => (shortestPathModel_none_iff ag "Internet" t).mpr (hall t ht))
    · intro ap hap
      rw [hloop] at hap
      rcases criticalLoop_origin g ag _ none ap hap with h1 | ⟨t, ht, ids, hids, hapm⟩
      · cases h1
      · obtain ⟨hmem, _⟩ := shortestPathModel_spec ag "Internet" t ids hids
        refine ⟨t, ht, ids, hmem, hapm, ?_⟩
        intro t' ht' q hq
        cases hm2 : shortestPathModel ag "Internet" t' with
        | none =>
          have hx := (shortestPathModel_none_iff ag "Internet" t').mp hm2
          rw [hx] at hq
          cases hq
        | some ids' =>
          have hap_le := (criticalLoop_min g ag _ none ap hap).2 t' ht' ids' hm2
          have hspec' := (shortestPathModel_spec ag "Internet" t' ids' hm2).2 q hq
          have hlen_eq : ap.steps.length = ids.length := by
            rw [hapm, mkAttackPath_steps_length]
          rw [hlen_eq] at hap_le
          exact Nat.le_trans hap_le hspec'

/-! ### C5 -/

/-- C5 counterexample: the critical path reported on `g5`/`ag5` ends at
`aws_s3_bucket.zz` (the sink reached first in target order), although the
equally short path to `aws_s3_bucket.aa` has the lexicographically
smaller node-id sequence. -/
theorem c5_counterexample :
    (findCriticalPath g5 ag5).map (fun ap => ap.steps.map (fun n => n.id)) =
      some ["Internet", "aws_s3_bucket.zz"] ∧
    shortestPathModel ag5 "Internet" "aws_s3_bucket.aa" =
      some ["Internet", "aws_s3_bucket.aa"] :=
  ⟨rfl, rfl⟩

/-- C5 (amended): `find_critical_path` returns no path exactly when no
sink of the resource graph is reachable from `Internet` by a simple path
of the attack graph, and any returned `AttackPath` is assembled from a
simple Internet-to-sink path whose edge count is minimal over all simple
paths from `Internet` to any sink.  (Among equally short paths the code
keeps the first sink in target order — `logs_to` targets in edge order,
then buckets in node order — and within one sink the enumeration order of
`networkx.shortest_path`, not the lexicographically least node-id
sequence; see the counterexample.) -/
theorem c5_min_path_amended (g : RGraph) (ag : AGraph) :
    (findCriticalPath g ag = none ↔
      ∀ t ∈ criticalTargets g, allSimplePaths ag "Internet" t ag.nodes.length = []) ∧
    ∀ ap, findCriticalPath g ag = some ap →
      ∃ t ∈ criticalTargets g, ∃ ids ∈ allSimplePaths ag "Internet" t ag.nodes.length,
        ap = mkAttackPath g ids ∧
        ∀ t' ∈ criticalTargets g, ∀ q ∈ allSimplePaths ag "Internet" t' ag.nodes.length,
          ids.length ≤ q.length :=
  c5_min_path g ag

/-- Witness for the amended C5 at a concrete input. -/
theorem c5_min_path_amended_witness :
    (findCriticalPath g5 ag5 = some c5ap) ∧
    (∃ t ∈ criticalTargets g5, ∃ ids ∈ allSimplePaths ag5 "Internet" t ag5.nodes.length,
      c5ap = mkAttackPath g5 ids ∧
      ∀ t' ∈ criticalTargets g5, ∀ q ∈ allSimplePaths ag5 "Internet" t' ag5.nodes.length,
        ids.length ≤ q.length) :=
  ⟨rfl, (c5_min_path_amended g5 ag5).2 c5ap rfl⟩

/-! ### C6 -/

/-- C6 counterexample: on the 12-edge chain the engine does NOT report
"no critical path" — `find_critical_path` uses `networkx.shortest_path`,
which has no cutoff. -/
theorem c6_counterexample : (findCriticalPath g6 ag6).isSome = true := rfl

/-- C6 (amended): on the single 12-edge chain from `Internet` to the
bucket sink, the bounded enumeration with the default cutoff of 10 edges
yields zero paths and hence zero remediations, but the engine still
reports a critical path of 13 nodes (12 edges), because
`find_critical_path` performs an uncut shortest-path query. -/
theorem c6_cutoff_amended :
    findAllPaths ag6 ["aws_s3_bucket.data"] = [] ∧
    calculateFixOrder ag6 ["aws_s3_bucket.data"] = [] ∧
    findCriticalPath g6 ag6 = some c6ap ∧
    c6ap.steps.length = 13 :=
  ⟨rfl, rfl, rfl, rfl⟩
